import Mathlib

/-!
Verification of the Image2GB tile-graphics core (`src/image_export.h`):
bitplane encoding of 8×8 tiles (`image2gb_convert_tile`), row-major tile
extraction (`image2gb_read_image_tiles`), duplicate-tile removal
(`image2gb_check_duplicates`) and the surrounding export pipeline
(`image2gb_export_image`).  The C code is embedded shallowly: the static
work arrays become functions `Nat → _`, the loops become folds over
`List.range`, and machine integers become `Nat` (no arithmetic here can
exceed 16 bits, so no wrap-around modelling is needed).
-/

/-- `DataTile` from `image_export.h`: the 8 planar 16-bit row words of a
Game Boy tile plus the flag marking it as a duplicate of another tile. -/
structure DataTile where
  row : List Nat
  duplicate : Bool
deriving DecidableEq

/-- A `DataTile` whose 8 row words are zero and which is not flagged,
the state of a `AdataTiles` entry in a freshly started process. -/
def zeroDataTile : DataTile :=
  ⟨List.replicate 8 0, false⟩

/-- Loop state of `image2gb_convert_tile`: the current bit pair
(`UCbitPair`, runs 1..8), current row (`UCtileRow`) and the 8 row words of
the destination tile (`POdataTile->row`). -/
structure ConvState where
  bitPair : Nat
  tileRow : Nat
  rows : List Nat

/-- One iteration of the 64-pixel loop of `image2gb_convert_tile`: OR the
low bit of the pixel into bit `16 - UCbitPair` and its high bit into bit
`8 - UCbitPair` of the current row word, then advance the bit pair,
switching to the next row after the 8th pair. -/
def convStep (t : Nat → Nat) (s : ConvState) (pixel : Nat) : ConvState :=
  let lowBit := t pixel &&& 0x1
  let highBit := (t pixel &&& 0x2) >>> 1
  let r1 := s.rows.getD s.tileRow 0 ||| (lowBit <<< (16 - s.bitPair))
  let r2 := r1 ||| (highBit <<< (8 - s.bitPair))
  if s.bitPair == 8 then
    ⟨1, s.tileRow + 1, s.rows.set s.tileRow r2⟩
  else
    ⟨s.bitPair + 1, s.tileRow, s.rows.set s.tileRow r2⟩

/-- `image2gb_convert_tile`: packs the 64 palette indices of an
`ImageTile` (given as a function from pixel index, row-major) into the 8
planar row words of the destination `DataTile`.  The bits are ORed into
the destination's current row words - the code never clears them - and
the `duplicate` flag is left untouched. -/
def image2gb_convert_tile (t : Nat → Nat) (d : DataTile) : DataTile :=
  ⟨((List.range 64).foldl (convStep t)
      ⟨1, 0, (List.range 8).map (fun r => d.row.getD r 0)⟩).rows,
    d.duplicate⟩

/-- The two bits pixel `p` contributes to its row word: the low bit of the
color index goes to the upper plane byte (bit `15 - p % 8`), the high bit
to the lower plane byte (bit `7 - p % 8`). -/
def pixBits (t : Nat → Nat) (p : Nat) : Nat :=
  ((t p &&& 0x1) <<< (15 - p % 8)) ||| (((t p &&& 0x2) >>> 1) <<< (7 - p % 8))

/-- OR of the contributions of the first `m` pixels of row `r`. -/
def rowOr (t : Nat → Nat) (r : Nat) : Nat → Nat
  | 0 => 0
  | m + 1 => rowOr t r m ||| pixBits t (8 * r + m)

/-- Row words after the first `k` iterations of the conversion loop. -/
def convRowsAfter (t : Nat → Nat) (init : Nat → Nat) : Nat → Nat → Nat
  | 0 => init
  | k + 1 => Function.update (convRowsAfter t init k) (k / 8)
      (convRowsAfter t init k (k / 8) ||| pixBits t k)

lemma map_range_getD (g : Nat → Nat) (n i : Nat) (h : i < n) :
    ((List.range n).map g).getD i 0 = g i := by
  rw [List.getD_eq_getElem _ _ (by simpa using h), List.getElem_map, List.getElem_range]

lemma map_range_set (g : Nat → Nat) (n i : Nat) (v : Nat) (h : i < n) :
    ((List.range n).map g).set i v = (List.range n).map (Function.update g i v) := by
  apply List.ext_getElem (by simp)
  intro j hj1 hj2
  simp only [List.getElem_set, List.getElem_map, List.getElem_range, Function.update_apply]
  by_cases hij : i = j
  · rw [if_pos hij, if_pos hij.symm]
  · rw [if_neg hij, if_neg (fun h => hij h.symm)]

lemma convert_fold_eq (t : Nat → Nat) (init : Nat → Nat) :
    ∀ k, k ≤ 64 →
      (List.range k).foldl (convStep t) ⟨1, 0, (List.range 8).map init⟩ =
        ⟨k % 8 + 1, k / 8, (List.range 8).map (convRowsAfter t init k)⟩ := by
  intro k
  induction k with
  | zero => intro _; rfl
  | succ k ih =>
    intro hk
    rw [List.range_succ (n := k), List.foldl_append, List.foldl_cons, List.foldl_nil,
      ih (by omega)]
    have hk8 : k / 8 < 8 := by omega
    have h16 : 16 - (k % 8 + 1) = 15 - k % 8 := by omega
    have h8 : 8 - (k % 8 + 1) = 7 - k % 8 := by omega
    show convStep t ⟨k % 8 + 1, k / 8, (List.range 8).map (convRowsAfter t init k)⟩ k = _
    rw [convStep]
    simp only [map_range_getD _ 8 _ hk8, map_range_set _ 8 _ _ hk8]
    have hrows : Function.update (convRowsAfter t init k) (k / 8)
          (convRowsAfter t init k (k / 8) ||| (t k &&& 0x1) <<< (16 - (k % 8 + 1))
            ||| ((t k &&& 0x2) >>> 1) <<< (8 - (k % 8 + 1)))
        = convRowsAfter t init (k + 1) := by
      rw [h16, h8, Nat.or_assoc]
      rfl
    by_cases h7 : k % 8 = 7
    · have hbeq : (k % 8 + 1 == 8) = true := by rw [h7]; rfl
      rw [hbeq, if_pos rfl]
      have hd : (k + 1) / 8 = k / 8 + 1 := by omega
      have hm : (k + 1) % 8 = 0 := by omega
      rw [hd, hm, hrows]
    · have hbeq : (k % 8 + 1 == 8) = false := by
        have : k % 8 < 8 := Nat.mod_lt _ (by norm_num)
        simp only [beq_eq_false_iff_ne, ne_eq]
        omega
      rw [hbeq, if_neg (by simp : ¬ (false = true))]
      have hd : (k + 1) / 8 = k / 8 := by omega
      have hm : (k + 1) % 8 = k % 8 + 1 := by omega
      rw [hd, hm, hrows]

lemma convRowsAfter_apply (t : Nat → Nat) (init : Nat → Nat) :
    ∀ k, k ≤ 64 → ∀ r,
      convRowsAfter t init k r =
        if r < k / 8 then init r ||| rowOr t r 8
        else if r = k / 8 then init r ||| rowOr t r (k % 8)
        else init r := by
  intro k
  induction k with
  | zero =>
    intro _ r
    show init r = _
    rcases Nat.eq_zero_or_pos r with h0 | hpos
    · subst h0
      simp [rowOr]
    · have h1 : ¬ r < 0 / 8 := by omega
      have h2 : ¬ r = 0 / 8 := by omega
      rw [if_neg h1, if_neg h2]
  | succ k ih =>
    intro hk r
    show Function.update (convRowsAfter t init k) (k / 8)
        (convRowsAfter t init k (k / 8) ||| pixBits t k) r = _
    rw [Function.update_apply]
    have hkd : 8 * (k / 8) + k % 8 = k := Nat.div_add_mod k 8
    by_cases hr : r = k / 8
    · rw [if_pos hr, hr]
      rw [ih (by omega) (k / 8)]
      have h1 : ¬ k / 8 < k / 8 := lt_irrefl _
      rw [if_neg h1, if_pos rfl]
      have hpix : pixBits t k = pixBits t (8 * (k / 8) + k % 8) := by rw [hkd]
      rw [hpix, Nat.or_assoc]
      have hstep : rowOr t (k / 8) (k % 8) ||| pixBits t (8 * (k / 8) + k % 8)
          = rowOr t (k / 8) (k % 8 + 1) := rfl
      rw [hstep]
      by_cases h7 : k % 8 = 7
      · have hd : (k + 1) / 8 = k / 8 + 1 := by omega
        have h81 : k % 8 + 1 = 8 := by omega
        rw [h81, hd, if_pos (by omega)]
      · have hd : (k + 1) / 8 = k / 8 := by omega
        have hm : (k + 1) % 8 = k % 8 + 1 := by omega
        rw [hd, hm, if_neg (lt_irrefl _), if_pos rfl]
    · rw [if_neg hr]
      rw [ih (by omega) r]
      by_cases hlt : r < k / 8
      · rw [if_pos hlt, if_pos (by omega)]
      · have hgt : k / 8 < r := by omega
        rw [if_neg hlt, if_neg hr]
        by_cases h7 : k % 8 = 7
        · have hd : (k + 1) / 8 = k / 8 + 1 := by omega
          have hm : (k + 1) % 8 = 0 := by omega
          rw [hd, hm]
          by_cases hre : r = k / 8 + 1
          · rw [if_neg (by omega), if_pos hre]
            show init r = init r ||| rowOr t r 0
            rw [show rowOr t r 0 = 0 from rfl, Nat.or_zero]
          · rw [if_neg (by omega), if_neg hre]
        · have hd : (k + 1) / 8 = k / 8 := by omega
          rw [hd, if_neg hlt, if_neg hr]

/-- Each of the 8 row words produced by `image2gb_convert_tile` is the
destination's previous word ORed with the packed bits of the 8 pixels of
that row. -/
lemma convert_tile_row (t : Nat → Nat) (d : DataTile) (r : Nat) (hr : r < 8) :
    (image2gb_convert_tile t d).row.getD r 0 = d.row.getD r 0 ||| rowOr t r 8 := by
  rw [image2gb_convert_tile]
  rw [convert_fold_eq t (fun r => d.row.getD r 0) 64 (le_refl _)]
  show ((List.range 8).map (convRowsAfter t (fun r => d.row.getD r 0) 64)).getD r 0 = _
  rw [map_range_getD _ 8 _ hr]
  rw [convRowsAfter_apply t _ 64 (le_refl _) r]
  rw [if_pos (by omega : r < 64 / 8)]

/-- The flag of the destination tile is untouched by the conversion. -/
lemma convert_tile_duplicate (t : Nat → Nat) (d : DataTile) :
    (image2gb_convert_tile t d).duplicate = d.duplicate := by
  rw [image2gb_convert_tile]

/-- The row list of a converted tile always has length 8. -/
lemma convert_tile_length (t : Nat → Nat) (d : DataTile) :
    (image2gb_convert_tile t d).row.length = 8 := by
  rw [image2gb_convert_tile]
  rw [convert_fold_eq t (fun r => d.row.getD r 0) 64 (le_refl _)]
  simp

/-- The plane byte built from per-pixel bits `bits 0 .. bits (m-1)`, pixel
`c` occupying bit position `7 - c` (leftmost pixel is the most significant
bit, spec §4.2). -/
def planeAux (bits : Nat → Nat) : Nat → Nat
  | 0 => 0
  | m + 1 => planeAux bits m ||| (bits m <<< (7 - m))

/-- Low-bit plane byte of row `r` as the spec describes it. -/
def lowPlaneSpec (t : Nat → Nat) (r : Nat) : Nat :=
  planeAux (fun c => t (8 * r + c) &&& 0x1) 8

/-- High-bit plane byte of row `r` as the spec describes it. -/
def highPlaneSpec (t : Nat → Nat) (r : Nat) : Nat :=
  planeAux (fun c => (t (8 * r + c) &&& 0x2) >>> 1) 8

lemma shiftLeft_add_assoc (a m n : Nat) : a <<< (m + n) = (a <<< m) <<< n := by
  simp [Nat.shiftLeft_eq, pow_add, mul_assoc]

lemma or_shiftLeft_distrib (a b n : Nat) : (a ||| b) <<< n = (a <<< n) ||| (b <<< n) := by
  apply Nat.eq_of_testBit_eq
  intro i
  simp only [Nat.testBit_shiftLeft, Nat.testBit_or]
  by_cases h : n ≤ i <;> simp [h]

lemma or_exchange (a b c d : Nat) : (a ||| b) ||| (c ||| d) = (a ||| c) ||| (b ||| d) := by
  apply Nat.eq_of_testBit_eq
  intro i
  simp only [Nat.testBit_or]
  cases a.testBit i <;> cases b.testBit i <;> cases c.testBit i <;> cases d.testBit i <;> rfl

/-- The row word accumulated by the code is the spec's planar packing:
low plane in the upper byte, high plane in the lower byte. -/
lemma rowOr_eq_planes (t : Nat → Nat) (r : Nat) :
    ∀ m, m ≤ 8 → rowOr t r m =
      (planeAux (fun c => t (8 * r + c) &&& 0x1) m <<< 8) |||
        planeAux (fun c => (t (8 * r + c) &&& 0x2) >>> 1) m := by
  intro m
  induction m with
  | zero => intro _; simp [rowOr, planeAux]
  | succ m ih =>
    intro hm
    have hm8 : m < 8 := by omega
    rw [rowOr, ih (by omega)]
    show _ ||| pixBits t (8 * r + m) = _
    have hmod : (8 * r + m) % 8 = m := by omega
    rw [pixBits, hmod]
    have h15 : 15 - m = (7 - m) + 8 := by omega
    rw [h15, shiftLeft_add_assoc]
    rw [planeAux, planeAux, or_shiftLeft_distrib]
    exact or_exchange _ _ _ _

lemma testBit_eq_false_of_lt {x i j : Nat} (h : x < 2 ^ i) (hij : i ≤ j) :
    x.testBit j = false := by
  apply Nat.testBit_lt_two_pow
  calc x < 2 ^ i := h
    _ ≤ 2 ^ j := Nat.pow_le_pow_right (by norm_num) hij

/-- Bit `j` of the partially built plane byte: set exactly when position
`j` was already filled (i.e. `8 - m ≤ j`) and the corresponding pixel bit
is set. -/
lemma planeAux_testBit (bits : Nat → Nat) (hb : ∀ c, bits c < 2) :
    ∀ m, m ≤ 8 → ∀ j, j < 8 →
      (planeAux bits m).testBit j = (decide (8 - m ≤ j) && (bits (7 - j)).testBit 0) := by
  intro m
  induction m with
  | zero =>
    intro _ j hj
    have : ¬ (8 - 0 ≤ j) := by omega
    simp [planeAux, this]
  | succ m ih =>
    intro hm j hj
    have hm8 : m < 8 := by omega
    rw [planeAux, Nat.testBit_or, ih (by omega) j hj, Nat.testBit_shiftLeft]
    rcases Nat.lt_trichotomy j (7 - m) with hlt | heq | hgt
    · have h1 : ¬ (8 - m ≤ j) := by omega
      have h2 : ¬ (8 - (m + 1) ≤ j) := by omega
      have h3 : ¬ (7 - m ≤ j) := by omega
      simp [h1, h2, h3]
    · have h1 : ¬ (8 - m ≤ j) := by omega
      have h2 : 8 - (m + 1) ≤ j := by omega
      have h3 : 7 - m ≤ j := by omega
      have h4 : j - (7 - m) = 0 := by omega
      have h5 : 7 - j = m := by omega
      simp [h1, h2, h3, h4, h5, ge_iff_le]
    · have h1 : 8 - m ≤ j := by omega
      have h2 : 8 - (m + 1) ≤ j := by omega
      have h3 : 7 - m ≤ j := by omega
      have h4 : (bits m).testBit (j - (7 - m)) = false := by
        apply testBit_eq_false_of_lt (i := 1) (by simpa using hb m)
        omega
      simp [h1, h2, h3, h4, ge_iff_le]

lemma planeAux_lt (bits : Nat → Nat) (hb : ∀ c, bits c < 2) :
    ∀ m, planeAux bits m < 256 := by
  intro m
  induction m with
  | zero => norm_num [planeAux]
  | succ m ih =>
    rw [planeAux]
    have h1 : bits m <<< (7 - m) < 256 := by
      rw [Nat.shiftLeft_eq]
      have hb1 : bits m ≤ 1 := by have := hb m; omega
      calc bits m * 2 ^ (7 - m) ≤ 1 * 2 ^ 7 := by
            apply Nat.mul_le_mul hb1
            apply Nat.pow_le_pow_right (by norm_num)
            omega
        _ < 256 := by norm_num
    exact Nat.or_lt_two_pow (n := 8) ih h1

lemma zeroDataTile_row (r : Nat) : zeroDataTile.row.getD r 0 = 0 := by
  rw [zeroDataTile]
  rcases Nat.lt_or_ge r 8 with h | h
  · rw [List.getD_eq_getElem _ _ (by simpa using h), List.getElem_replicate]
  · rw [List.getD_eq_default _ _ (by simpa using h)]

/-- Encoding into a zeroed tile yields exactly the planar packing of the
spec: low-bit plane in the upper byte, high-bit plane in the lower byte. -/
lemma convert_zero_row (t : Nat → Nat) (r : Nat) (hr : r < 8) :
    (image2gb_convert_tile t zeroDataTile).row.getD r 0 =
      (lowPlaneSpec t r <<< 8) ||| highPlaneSpec t r := by
  rw [convert_tile_row _ _ _ hr, zeroDataTile_row, Nat.zero_or,
    rowOr_eq_planes t r 8 (le_refl _)]
  rfl

lemma lowBits_lt (t : Nat → Nat) (r : Nat) :
    ∀ c, (fun c => t (8 * r + c) &&& 0x1) c < 2 := by
  intro c
  show t (8 * r + c) &&& 0x1 < 2
  have := Nat.and_le_right (n := t (8 * r + c)) (m := 0x1)
  omega

lemma highBits_lt (t : Nat → Nat) (r : Nat) :
    ∀ c, (fun c => (t (8 * r + c) &&& 0x2) >>> 1) c < 2 := by
  intro c
  show (t (8 * r + c) &&& 0x2) >>> 1 < 2
  have h1 := Nat.and_le_right (n := t (8 * r + c)) (m := 0x2)
  have h2 : (t (8 * r + c) &&& 0x2) >>> 1 = (t (8 * r + c) &&& 0x2) / 2 ^ 1 :=
    Nat.shiftRight_eq_div_pow _ _
  have h3 : (t (8 * r + c) &&& 0x2) / 2 ≤ 0x2 / 2 := Nat.div_le_div_right h1
  rw [h2, pow_one]
  omega

/-- Bit `7 - c` of the low plane byte is the low bit of pixel `c`. -/
lemma lowPlaneSpec_testBit (t : Nat → Nat) (r c : Nat) (hc : c < 8) :
    (lowPlaneSpec t r).testBit (7 - c) = (t (8 * r + c)).testBit 0 := by
  rw [lowPlaneSpec,
    planeAux_testBit _ (lowBits_lt t r) 8 (le_refl _) (7 - c) (by omega)]
  have h77 : 7 - (7 - c) = c := by omega
  have h08 : 8 - 8 ≤ 7 - c := by omega
  rw [h77]
  simp only [h08, decide_eq_true_eq, decide_True, Bool.true_and]
  rw [Nat.testBit_and]
  have h1 : (0x1 : Nat).testBit 0 = true := rfl
  rw [h1, Bool.and_true]

/-- Bit `7 - c` of the high plane byte is the high bit of pixel `c`. -/
lemma highPlaneSpec_testBit (t : Nat → Nat) (r c : Nat) (hc : c < 8) :
    (highPlaneSpec t r).testBit (7 - c) = (t (8 * r + c)).testBit 1 := by
  rw [highPlaneSpec,
    planeAux_testBit _ (highBits_lt t r) 8 (le_refl _) (7 - c) (by omega)]
  have h77 : 7 - (7 - c) = c := by omega
  have h08 : 8 - 8 ≤ 7 - c := by omega
  rw [h77]
  simp only [h08, decide_eq_true_eq, decide_True, Bool.true_and]
  rw [Nat.testBit_shiftRight, Nat.testBit_and]
  have h1 : (0x2 : Nat).testBit (1 + 0) = true := rfl
  rw [h1, Bool.and_true]

lemma word_testBit_upper (L H j : Nat) (hH : H < 256) (hj : j < 8) :
    ((L <<< 8) ||| H).testBit (8 + j) = L.testBit j := by
  rw [Nat.testBit_or, Nat.testBit_shiftLeft]
  have h1 : H.testBit (8 + j) = false := by
    apply testBit_eq_false_of_lt (i := 8)
    · norm_num [hH]
    · omega
  have h2 : 8 + j - 8 = j := by omega
  have h3 : 8 ≤ 8 + j := by omega
  simp [h1, h2, h3, ge_iff_le]

lemma word_testBit_lower (L H j : Nat) (hj : j < 8) :
    ((L <<< 8) ||| H).testBit j = H.testBit j := by
  rw [Nat.testBit_or, Nat.testBit_shiftLeft]
  have h1 : ¬ (8 ≤ j) := by omega
  simp [h1, ge_iff_le]

lemma planeAux_congr (bits bits' : Nat → Nat) :
    ∀ m, (∀ c, c < m → bits c = bits' c) → planeAux bits m = planeAux bits' m := by
  intro m
  induction m with
  | zero => intro _; rfl
  | succ m ih =>
    intro h
    rw [planeAux, planeAux, ih (fun c hc => h c (by omega)), h m (by omega)]

/-- C1: for every RawTile (64 indices in {0,1,2,3}) the encoder produces,
for each pixel row `r`, the 16-bit word `(low_plane <<< 8) ||| high_plane`
where bit `7-c` of the low (resp. high) plane byte is bit 0 (resp. bit 1)
of the index of pixel `(r,c)`; in particular a tile whose every row is
`[0,1,2,3,0,1,2,3]` encodes every row word as `0x5533`. -/
theorem image2gb_c1_bitplane_encoding :
    (∀ t : Nat → Nat, (∀ p, p < 64 → t p < 4) → ∀ r c, r < 8 → c < 8 →
      (image2gb_convert_tile t zeroDataTile).row.getD r 0 =
          (lowPlaneSpec t r <<< 8) ||| highPlaneSpec t r
        ∧ (lowPlaneSpec t r).testBit (7 - c) = (t (8 * r + c)).testBit 0
        ∧ (highPlaneSpec t r).testBit (7 - c) = (t (8 * r + c)).testBit 1)
    ∧ (∀ r, r < 8 →
        (image2gb_convert_tile (fun p => p % 4) zeroDataTile).row.getD r 0 = 0x5533) := by
  constructor
  · intro t _ r c hr hc
    exact ⟨convert_zero_row t r hr, lowPlaneSpec_testBit t r c hc,
      highPlaneSpec_testBit t r c hc⟩
  · intro r hr
    rw [convert_zero_row _ r hr]
    have hlow : lowPlaneSpec (fun p => p % 4) r = 0x55 := by
      rw [lowPlaneSpec]
      rw [planeAux_congr _ (fun c => c % 4 &&& 0x1) 8 ?_]
      · decide
      · intro c _
        show (8 * r + c) % 4 &&& 0x1 = c % 4 &&& 0x1
        congr 1
        omega
    have hhigh : highPlaneSpec (fun p => p % 4) r = 0x33 := by
      rw [highPlaneSpec]
      rw [planeAux_congr _ (fun c => (c % 4 &&& 0x2) >>> 1) 8 ?_]
      · decide
      · intro c _
        show ((8 * r + c) % 4 &&& 0x2) >>> 1 = (c % 4 &&& 0x2) >>> 1
        congr 2
        omega
    rw [hlow, hhigh]
    decide

/-- Closed witness for C1, at the `[0,1,2,3,0,1,2,3]` pattern tile,
row 0 and column 1. -/
theorem image2gb_c1_witness :
    (image2gb_convert_tile (fun p => p % 4) zeroDataTile).row.getD 0 0 =
        (lowPlaneSpec (fun p => p % 4) 0 <<< 8) ||| highPlaneSpec (fun p => p % 4) 0
      ∧ (lowPlaneSpec (fun p => p % 4) 0).testBit (7 - 1)
          = ((fun p : Nat => p % 4) (8 * 0 + 1)).testBit 0
      ∧ (highPlaneSpec (fun p => p % 4) 0).testBit (7 - 1)
          = ((fun p : Nat => p % 4) (8 * 0 + 1)).testBit 1 :=
  image2gb_c1_bitplane_encoding.1 (fun p => p % 4)
    (fun p _ => by show p % 4 < 4; omega) 0 1 (by decide) (by decide)

/-- Decoding one pixel out of a packed row word, as the spec describes it:
bit `7-c` of the upper byte is the low bit, bit `7-c` of the lower byte
the high bit of the color index. -/
def decodePixel (w c : Nat) : Nat :=
  (if w.testBit (8 + (7 - c)) then 1 else 0) + 2 * (if w.testBit (7 - c) then 1 else 0)

/-- C4: bitplane packing is lossless - decoding any pixel of any encoded
row word reproduces the original palette index exactly. -/
theorem image2gb_c4_lossless (t : Nat → Nat) (ht : ∀ p, p < 64 → t p < 4)
    (r c : Nat) (hr : r < 8) (hc : c < 8) :
    decodePixel ((image2gb_convert_tile t zeroDataTile).row.getD r 0) c = t (8 * r + c) := by
  rw [convert_zero_row t r hr, decodePixel]
  have hH : highPlaneSpec t r < 256 := planeAux_lt _ (highBits_lt t r) 8
  rw [word_testBit_upper _ _ _ hH (by omega), word_testBit_lower _ _ _ (by omega)]
  rw [lowPlaneSpec_testBit t r c hc, highPlaneSpec_testBit t r c hc]
  have hv : t (8 * r + c) < 4 := ht _ (by omega)
  generalize t (8 * r + c) = v at hv ⊢
  have h4 : v = 0 ∨ v = 1 ∨ v = 2 ∨ v = 3 := by omega
  rcases h4 with rfl | rfl | rfl | rfl <;> decide

/-- Closed witness for C4, at the `[0,1,2,3,0,1,2,3]` pattern tile,
row 3 and column 2. -/
theorem image2gb_c4_witness :
    decodePixel ((image2gb_convert_tile (fun p => p % 4) zeroDataTile).row.getD 3 0) 2
      = (fun p : Nat => p % 4) (8 * 3 + 2) :=
  image2gb_c4_lossless (fun p => p % 4) (fun p _ => by show p % 4 < 4; omega)
    3 2 (by decide) (by decide)

/-- The row-by-row tile content comparison of the inner loop of
`image2gb_check_duplicates` (rows 0..7 all equal). -/
def sameRows (a b : DataTile) : Bool :=
  (List.range 8).all (fun r => a.row.getD r 0 == b.row.getD r 0)

/-- State of `image2gb_check_duplicates`: the static arrays `AdataTiles`
and `AtileMap` (as functions from tile index) plus the two counters
`UIduplicateCount` and `UIpreviousDuplicates`. -/
structure DedupState where
  tiles : Nat → DataTile
  tileMap : Nat → Nat
  duplicateCount : Nat
  previousDuplicates : Nat

/-- One iteration of the inner (`checktile`) loop of
`image2gb_check_duplicates`: if the anchor tile and `checktile` have
identical rows, mark `checktile` as duplicate, count it, and replace its
tilemap entry with the anchor's (already corrected) entry. -/
def dedupInnerStep (tile : Nat) (s : DedupState) (checktile : Nat) : DedupState :=
  if sameRows (s.tiles tile) (s.tiles checktile) then
    { tiles := Function.update s.tiles checktile ⟨(s.tiles checktile).row, true⟩,
      tileMap := Function.update s.tileMap checktile (s.tileMap tile),
      duplicateCount := s.duplicateCount + 1,
      previousDuplicates := s.previousDuplicates }
  else s

/-- One iteration of the outer (`tile`) loop of
`image2gb_check_duplicates`: tiles already marked duplicate only bump
`UIpreviousDuplicates`; any other tile gets its compacted tilemap entry
`tile - UIpreviousDuplicates` and then scans all later tiles for copies. -/
def dedupOuterStep (n : Nat) (s : DedupState) (tile : Nat) : DedupState :=
  if (s.tiles tile).duplicate then
    { s with previousDuplicates := s.previousDuplicates + 1 }
  else
    (List.range' (tile + 1) (n - (tile + 1))).foldl (dedupInnerStep tile)
      { s with tileMap := Function.update s.tileMap tile (tile - s.previousDuplicates) }

/-- Outputs of `image2gb_check_duplicates`: the updated tile array and
tilemap and the final `UItileCount` (number of unique tiles). -/
structure DedupResult where
  tiles : Nat → DataTile
  tileMap : Nat → Nat
  uniqueCount : Nat

/-- `image2gb_check_duplicates` over `n = UItileWidth * UItileHeight`
tiles: initialize the first `n` tilemap entries to the identity, run the
duplicate scan, and subtract the number of duplicates found from the tile
count.  Pre-existing `duplicate` flags are NOT cleared (the code never
resets them). -/
def dedupFold (n : Nat) (tiles0 : Nat → DataTile) (map0 : Nat → Nat) : DedupState :=
  (List.range n).foldl (dedupOuterStep n)
    ⟨tiles0, (List.range n).foldl (fun m t => Function.update m t t) map0, 0, 0⟩

def image2gb_check_duplicates (n : Nat) (tiles0 : Nat → DataTile)
    (map0 : Nat → Nat) : DedupResult :=
  ⟨(dedupFold n tiles0 map0).tiles, (dedupFold n tiles0 map0).tileMap,
    n - (dedupFold n tiles0 map0).duplicateCount⟩

/-- The canonical tile table, as `image2gb_write_tile_data` emits it: the
rows of all tiles not marked duplicate, in position order. -/
def canonTableList (n : Nat) (tiles : Nat → DataTile) : List (List Nat) :=
  ((List.range n).filter (fun i => !(tiles i).duplicate)).map (fun i => (tiles i).row)

/-- The 8×8 block of the pixel grid at tile coordinates `(row, col)`, in
row-major pixel order, as `gegl_buffer_get` fills `OimageTile`. -/
def imageTileOf (grid : Nat → Nat → Nat) (row col : Nat) : Nat → Nat :=
  fun p => grid (8 * row + p / 8) (8 * col + p % 8)

/-- `image2gb_read_image_tiles`: loop over all tile blocks of the image in
row-major order and convert each one into `AdataTiles[row*tileWidth+col]`. -/
def image2gb_read_image_tiles (grid : Nat → Nat → Nat) (tw th : Nat)
    (tiles0 : Nat → DataTile) : Nat → DataTile :=
  (List.range th).foldl (fun ts row =>
    (List.range tw).foldl (fun ts col =>
      Function.update ts (row * tw + col)
        (image2gb_convert_tile (imageTileOf grid row col) (ts (row * tw + col)))) ts) tiles0

/-- The process-wide static buffers `AdataTiles` and `AtileMap`. -/
structure StaticState where
  dataTiles : Nat → DataTile
  tileMap : Nat → Nat

/-- The static buffers of a freshly started process (statics are
zero-initialized: all row words 0, all flags FALSE, tilemap 0). -/
def initialStaticState : StaticState :=
  ⟨fun _ => zeroDataTile, fun _ => 0⟩

/-- What one `image2gb_export_image` call produces: the emitted canonical
tile table and tilemap, the final unique-tile count, whether the VRAM
advisory warning fired, and the static buffers it leaves behind. -/
structure ExportResult where
  canonicalTable : List (List Nat)
  tileMap : List Nat
  uniqueCount : Nat
  advisory : Bool
  state : StaticState

/-- `image2gb_export_image`: compute `UItileWidth`/`UItileHeight`, read
and encode all tiles (into the possibly stale static buffers), remove
duplicates, and warn - without aborting - when more than 256 unique tiles
remain.  The output files are then written from the surviving tiles and
the tilemap. -/
def image2gb_export_image (st : StaticState) (grid : Nat → Nat → Nat)
    (width height : Nat) : ExportResult :=
  let tw := width / 8
  let th := height / 8
  let tiles1 := image2gb_read_image_tiles grid tw th st.dataTiles
  let r := image2gb_check_duplicates (tw * th) tiles1 st.tileMap
  { canonicalTable := canonTableList (tw * th) r.tiles
    tileMap := (List.range (tw * th)).map r.tileMap
    uniqueCount := r.uniqueCount
    advisory := decide (r.uniqueCount > 256)
    state := ⟨r.tiles, r.tileMap⟩ }

lemma sameRows_iff (a b : DataTile) :
    sameRows a b = true ↔ ∀ r, r < 8 → a.row.getD r 0 = b.row.getD r 0 := by
  simp [sameRows, List.all_eq_true, List.mem_range]

lemma sameRows_refl (a : DataTile) : sameRows a a = true := by
  rw [sameRows_iff]
  intro r _
  rfl

lemma sameRows_symm {a b : DataTile} (h : sameRows a b = true) : sameRows b a = true := by
  rw [sameRows_iff] at h ⊢
  intro r hr
  exact (h r hr).symm

lemma sameRows_trans {a b c : DataTile} (h1 : sameRows a b = true)
    (h2 : sameRows b c = true) : sameRows a c = true := by
  rw [sameRows_iff] at h1 h2 ⊢
  intro r hr
  rw [h1 r hr, h2 r hr]

lemma sameRows_rows_congr {a b a' b' : DataTile} (h1 : a.row = a'.row)
    (h2 : b.row = b'.row) : sameRows a b = sameRows a' b' := by
  rw [sameRows, sameRows, h1, h2]

/-- The position of the earliest tile with the same row content as tile
`i` (`i` itself when no earlier tile matches).  This is the anchor that
`image2gb_check_duplicates` keeps. -/
def firstOcc (t : Nat → DataTile) (i : Nat) : Nat :=
  ((List.range i).filter (fun j => sameRows (t j) (t i))).headD i

lemma firstOcc_spec (t : Nat → DataTile) (i : Nat) :
    firstOcc t i ≤ i ∧ sameRows (t (firstOcc t i)) (t i) = true
      ∧ ∀ j, j < firstOcc t i → sameRows (t j) (t i) = false := by
  rcases hF : (List.range i).filter (fun j => sameRows (t j) (t i)) with _ | ⟨a, tl⟩
  · have hfo : firstOcc t i = i := by rw [firstOcc, hF]; rfl
    rw [hfo]
    refine ⟨le_refl i, sameRows_refl _, ?_⟩
    intro j hj
    have hnil := List.filter_eq_nil_iff.mp hF
    have := hnil j (List.mem_range.mpr hj)
    cases hsr : sameRows (t j) (t i)
    · rfl
    · exact absurd hsr this
  · have hfo : firstOcc t i = a := by rw [firstOcc, hF]; rfl
    rw [hfo]
    have ha : a ∈ (List.range i).filter (fun j => sameRows (t j) (t i)) := by
      rw [hF]
      exact List.mem_cons_self a tl
    have ha2 := List.mem_filter.mp ha
    have hai : a < i := List.mem_range.mp ha2.1
    refine ⟨le_of_lt hai, ha2.2, ?_⟩
    intro j hj
    have hpair : List.Pairwise (· < ·)
        ((List.range i).filter (fun j => sameRows (t j) (t i))) :=
      List.Pairwise.sublist (List.filter_sublist _) (List.pairwise_lt_range i)
    rw [hF] at hpair
    have htl := (List.pairwise_cons.mp hpair).1
    cases hsr : sameRows (t j) (t i)
    · rfl
    · exfalso
      have hjm : j ∈ (List.range i).filter (fun j => sameRows (t j) (t i)) := by
        apply List.mem_filter.mpr
        exact ⟨List.mem_range.mpr (lt_trans hj hai), by simpa using hsr⟩
      rw [hF] at hjm
      rcases List.mem_cons.mp hjm with he | hm
      · omega
      · have := htl j hm
        omega

lemma firstOcc_le (t : Nat → DataTile) (i : Nat) : firstOcc t i ≤ i :=
  (firstOcc_spec t i).1

lemma firstOcc_sameRows (t : Nat → DataTile) (i : Nat) :
    sameRows (t (firstOcc t i)) (t i) = true :=
  (firstOcc_spec t i).2.1

lemma firstOcc_min (t : Nat → DataTile) (i : Nat) :
    ∀ j, j < firstOcc t i → sameRows (t j) (t i) = false :=
  (firstOcc_spec t i).2.2

lemma firstOcc_eq_of (t : Nat → DataTile) {i m : Nat}
    (hm : sameRows (t m) (t i) = true)
    (hmin : ∀ j, j < m → sameRows (t j) (t i) = false) : firstOcc t i = m := by
  rcases Nat.lt_trichotomy (firstOcc t i) m with h | h | h
  · have hc := hmin _ h
    rw [firstOcc_sameRows t i] at hc
    exact absurd hc (by simp)
  · exact h
  · have hc := firstOcc_min t i m h
    rw [hm] at hc
    exact absurd hc (by simp)

lemma firstOcc_congr {t : Nat → DataTile} {i j : Nat}
    (h : sameRows (t i) (t j) = true) : firstOcc t i = firstOcc t j := by
  apply firstOcc_eq_of
  · exact sameRows_trans (firstOcc_sameRows t j) (sameRows_symm h)
  · intro p hp
    cases hsr : sameRows (t p) (t i)
    · rfl
    · have : sameRows (t p) (t j) = true := sameRows_trans hsr h
      have hc := firstOcc_min t j p hp
      rw [this] at hc
      exact absurd hc (by simp)

lemma firstOcc_idem (t : Nat → DataTile) (i : Nat) :
    firstOcc t (firstOcc t i) = firstOcc t i :=
  firstOcc_congr (firstOcc_sameRows t i)

lemma firstOcc_rows_congr {t t' : Nat → DataTile}
    (h : ∀ k, (t k).row = (t' k).row) (i : Nat) :
    firstOcc t i = firstOcc t' i := by
  rw [firstOcc, firstOcc]
  have hfil : (List.range i).filter (fun j => sameRows (t j) (t i))
      = (List.range i).filter (fun j => sameRows (t' j) (t' i)) :=
    List.filter_congr (by intro x _; rw [sameRows_rows_congr (h x) (h i)])
  rw [hfil]

lemma firstOcc_ne_of_not_anchor {t : Nat → DataTile} {k : Nat}
    (h : firstOcc t k < k) (i : Nat) : firstOcc t i ≠ k := by
  intro he
  have hid := firstOcc_idem t i
  rw [he] at hid
  omega

lemma firstOcc_eq_anchor_iff {t : Nat → DataTile} {k ct : Nat}
    (hfo : firstOcc t k = k) (hlt : k < ct) :
    sameRows (t k) (t ct) = true ↔ firstOcc t ct = k := by
  constructor
  · intro h
    have := firstOcc_congr (sameRows_symm h)
    rw [hfo] at this
    omega
  · intro h
    have := firstOcc_sameRows t ct
    rw [h] at this
    exact this

/-- Number of positions below `k` that are duplicates of an earlier tile
(their first occurrence is strictly earlier). -/
def dupsBefore (t : Nat → DataTile) (k : Nat) : Nat :=
  (List.range k).countP (fun j => decide (firstOcc t j < j))

/-- The compacted tilemap entry the deduplicator assigns to position `i`:
the position of its earliest copy, minus the duplicates before that. -/
def canonIdx (t : Nat → DataTile) (i : Nat) : Nat :=
  firstOcc t i - dupsBefore t (firstOcc t i)

lemma dupsBefore_le (t : Nat → DataTile) (k : Nat) : dupsBefore t k ≤ k := by
  calc dupsBefore t k ≤ (List.range k).length := List.countP_le_length _
    _ = k := List.length_range k

lemma dupsBefore_succ (t : Nat → DataTile) (k : Nat) :
    dupsBefore t (k + 1)
      = dupsBefore t k + (if firstOcc t k < k then 1 else 0) := by
  rw [dupsBefore, dupsBefore, List.range_succ, List.countP_append]
  congr 1
  rw [show [k] = k :: ([] : List Nat) from rfl, List.countP_cons]
  simp

lemma dupsBefore_mono (t : Nat → DataTile) {k m : Nat} (h : k ≤ m) :
    dupsBefore t k ≤ dupsBefore t m := by
  induction m with
  | zero =>
    have : k = 0 := by omega
    subst this
    exact le_refl _
  | succ m ih =>
    rcases Nat.lt_or_ge k (m + 1) with h1 | h1
    · have h2 : dupsBefore t m ≤ dupsBefore t (m + 1) := by
        rw [dupsBefore_succ]
        split <;> omega
      exact le_trans (ih (by omega)) h2
    · have : k = m + 1 := by omega
      subst this
      exact le_refl _

lemma decide_or_eq (p q : Prop) [Decidable p] [Decidable q] :
    decide (p ∨ q) = (decide p || decide q) := by
  by_cases hp : p <;> by_cases hq : q <;> simp [hp, hq]

lemma countP_split (l : List Nat) (p q r : Nat → Bool)
    (h : ∀ a ∈ l, p a = (q a || r a) ∧ ¬(q a = true ∧ r a = true)) :
    l.countP p = l.countP q + l.countP r := by
  induction l with
  | nil => rfl
  | cons a tl ih =>
    have ha := h a (List.mem_cons_self a tl)
    rw [List.countP_cons, List.countP_cons, List.countP_cons,
      ih (fun x hx => h x (List.mem_cons_of_mem a hx)), ha.1]
    cases hq : q a <;> cases hr : r a
    · simp
    · simp
      omega
    · simp
      omega
    · exact absurd ⟨hq, hr⟩ ha.2

lemma range'_snoc (s c : Nat) :
    List.range' s (c + 1) = List.range' s c ++ [s + c] := by
  have h := List.range'_append s c 1 1
  simp only [Nat.one_mul, List.range'_one] at h
  rw [Nat.add_comm 1 c] at h
  exact h.symm

lemma range_split (n k : Nat) (h : k < n) :
    List.range n = List.range (k + 1) ++ List.range' (k + 1) (n - (k + 1)) := by
  have h1 := List.range'_append 0 (k + 1) (n - (k + 1)) 1
  simp only [Nat.one_mul, Nat.zero_add] at h1
  rw [List.range_eq_range' n, List.range_eq_range' (k + 1)]
  rw [h1]
  congr 1
  omega

lemma foldl_range_inv {α : Type} (n : Nat) (f : α → Nat → α)
    (P : Nat → α → Prop) (a : α) (h0 : P 0 a)
    (hstep : ∀ k s, k < n → P k s → P (k + 1) (f s k)) :
    P n ((List.range n).foldl f a) := by
  induction n with
  | zero => exact h0
  | succ n ih =>
    rw [List.range_succ, List.foldl_append, List.foldl_cons, List.foldl_nil]
    exact hstep n _ (by omega) (ih (fun k s hk => hstep k s (by omega)))

lemma foldl_range'_inv {α : Type} (m : Nat) (start : Nat) (f : α → Nat → α)
    (P : Nat → α → Prop) (a : α) (h0 : P 0 a)
    (hstep : ∀ j s, j < m → P j s → P (j + 1) (f s (start + j))) :
    P m ((List.range' start m).foldl f a) := by
  induction m with
  | zero => exact h0
  | succ m ih =>
    rw [range'_snoc, List.foldl_append, List.foldl_cons, List.foldl_nil]
    exact hstep m _ (by omega) (ih (fun j s hj => hstep j s (by omega)))

lemma initMap_apply (map0 : Nat → Nat) (n : Nat) :
    ∀ i, ((List.range n).foldl (fun m t => Function.update m t t) map0) i
      = if i < n then i else map0 i := by
  induction n with
  | zero =>
    intro i
    rw [if_neg (by omega)]
    rfl
  | succ n ih =>
    intro i
    rw [List.range_succ, List.foldl_append, List.foldl_cons, List.foldl_nil,
      Function.update_apply]
    by_cases hi : i = n
    · rw [if_pos hi, if_pos (by omega), hi]
    · rw [if_neg hi, ih i]
      by_cases hn : i < n
      · rw [if_pos hn, if_pos (by omega)]
      · rw [if_neg hn, if_neg (by omega)]

/-- Invariant of the inner (`checktile`) loop of the duplicate scan, for
anchor `k`, after the checktiles `k+1 .. k+c` have been processed.
`t0` is the tile array at entry of `image2gb_check_duplicates` and `m1`
the tilemap just after its identity initialization. -/
structure InnerInv (n : Nat) (t0 : Nat → DataTile) (m1 : Nat → Nat)
    (k : Nat) (c : Nat) (s : DedupState) : Prop where
  rows : ∀ i, (s.tiles i).row = (t0 i).row
  flag : ∀ i, (s.tiles i).duplicate
    = ((t0 i).duplicate
        || decide ((firstOcc t0 i < i ∧ firstOcc t0 i < k ∧ i < n)
          ∨ (firstOcc t0 i = k ∧ k < i ∧ i < k + 1 + c)))
  map : ∀ i, s.tileMap i
    = if (firstOcc t0 i < k ∨ (firstOcc t0 i = k ∧ i < k + 1 + c)) ∧ i < n
        then canonIdx t0 i else m1 i
  dcount : s.duplicateCount
    = (List.range n).countP
        (fun i => decide (firstOcc t0 i < i ∧ firstOcc t0 i < k))
      + (List.range' (k + 1) c).countP (fun i => decide (firstOcc t0 i = k))
  pdups : s.previousDuplicates = dupsBefore t0 k

lemma inner_step_inv (n : Nat) (t0 : Nat → DataTile) (m1 : Nat → Nat) (k : Nat)
    (hk : k < n) (hfo : firstOcc t0 k = k) (c : Nat) (s : DedupState)
    (hc : c < n - (k + 1)) (h : InnerInv n t0 m1 k c s) :
    InnerInv n t0 m1 k (c + 1) (dedupInnerStep k s (k + 1 + c)) := by
  have hctn : k + 1 + c < n := by omega
  have hkct : k < k + 1 + c := by omega
  have hcond : sameRows (s.tiles k) (s.tiles (k + 1 + c))
      = sameRows (t0 k) (t0 (k + 1 + c)) :=
    sameRows_rows_congr (h.rows k) (h.rows (k + 1 + c))
  rw [dedupInnerStep]
  by_cases hm : firstOcc t0 (k + 1 + c) = k
  · have htrue : sameRows (s.tiles k) (s.tiles (k + 1 + c)) = true := by
      rw [hcond]
      exact (firstOcc_eq_anchor_iff hfo hkct).mpr hm
    rw [if_pos htrue]
    constructor
    · intro i
      dsimp only
      rw [Function.update_apply]
      by_cases hi : i = k + 1 + c
      · rw [if_pos hi]
        dsimp only
        rw [h.rows (k + 1 + c), hi]
      · rw [if_neg hi, h.rows i]
    · intro i
      dsimp only
      rw [Function.update_apply]
      by_cases hi : i = k + 1 + c
      · rw [if_pos hi]
        dsimp only
        have hdec : decide ((firstOcc t0 i < i ∧ firstOcc t0 i < k ∧ i < n)
            ∨ (firstOcc t0 i = k ∧ k < i ∧ i < k + 1 + (c + 1))) = true := by
          simp only [decide_eq_true_eq]
          subst hi
          right
          exact ⟨hm, by omega, by omega⟩
        rw [hdec, Bool.or_true]
      · rw [if_neg hi, h.flag i]
        congr 1
        apply decide_eq_decide.mpr
        constructor
        · rintro (h1 | h1)
          · exact Or.inl h1
          · exact Or.inr ⟨h1.1, h1.2.1, by omega⟩
        · rintro (h1 | h1)
          · exact Or.inl h1
          · refine Or.inr ⟨h1.1, h1.2.1, ?_⟩
            rcases h1 with ⟨he, hlt, hb⟩
            by_contra hge
            have : i = k + 1 + c := by omega
            exact hi this
    · intro i
      dsimp only
      rw [Function.update_apply]
      by_cases hi : i = k + 1 + c
      · rw [if_pos hi]
        rw [h.map k]
        rw [if_pos ⟨Or.inr ⟨hfo, by omega⟩, hk⟩]
        rw [if_pos (by subst hi; exact ⟨Or.inr ⟨hm, by omega⟩, hctn⟩)]
        subst hi
        rw [canonIdx, canonIdx, hm, hfo]
      · rw [if_neg hi, h.map i]
        by_cases h1 : (firstOcc t0 i < k ∨ (firstOcc t0 i = k ∧ i < k + 1 + c)) ∧ i < n
        · have h2 : (firstOcc t0 i < k
              ∨ (firstOcc t0 i = k ∧ i < k + 1 + (c + 1))) ∧ i < n := by
            refine ⟨?_, h1.2⟩
            rcases h1.1 with h3 | h3
            · exact Or.inl h3
            · exact Or.inr ⟨h3.1, by omega⟩
          rw [if_pos h1, if_pos h2]
        · have h2 : ¬ ((firstOcc t0 i < k
              ∨ (firstOcc t0 i = k ∧ i < k + 1 + (c + 1))) ∧ i < n) := by
            intro h2
            apply h1
            refine ⟨?_, h2.2⟩
            rcases h2.1 with h3 | h3
            · exact Or.inl h3
            · refine Or.inr ⟨h3.1, ?_⟩
              rcases h3 with ⟨he, hb⟩
              by_contra hge
              have : i = k + 1 + c := by omega
              exact hi this
          rw [if_neg h1, if_neg h2]
    · show s.duplicateCount + 1 = _
      rw [h.dcount, range'_snoc, List.countP_append]
      rw [show [k + 1 + c] = (k + 1 + c) :: ([] : List Nat) from rfl, List.countP_cons]
      simp only [List.countP_nil]
      rw [show (decide (firstOcc t0 (k + 1 + c) = k)) = true from by
        simp only [decide_eq_true_eq]; exact hm]
      rw [if_pos rfl]
      omega
    · show s.previousDuplicates = _
      exact h.pdups
  · have hfalse : sameRows (s.tiles k) (s.tiles (k + 1 + c)) = false := by
      rw [hcond]
      cases hsr : sameRows (t0 k) (t0 (k + 1 + c))
      · rfl
      · exact absurd ((firstOcc_eq_anchor_iff hfo hkct).mp hsr) hm
    rw [if_neg (by rw [hfalse]; exact Bool.false_ne_true)]
    constructor
    · exact h.rows
    · intro i
      rw [h.flag i]
      congr 1
      apply decide_eq_decide.mpr
      constructor
      · rintro (h1 | h1)
        · exact Or.inl h1
        · exact Or.inr ⟨h1.1, h1.2.1, by omega⟩
      · rintro (h1 | h1)
        · exact Or.inl h1
        · refine Or.inr ⟨h1.1, h1.2.1, ?_⟩
          rcases h1 with ⟨he, hlt, hb⟩
          by_contra hge
          have hict : i = k + 1 + c := by omega
          rw [hict] at he
          exact hm he
    · intro i
      rw [h.map i]
      by_cases h1 : (firstOcc t0 i < k ∨ (firstOcc t0 i = k ∧ i < k + 1 + c)) ∧ i < n
      · have h2 : (firstOcc t0 i < k
            ∨ (firstOcc t0 i = k ∧ i < k + 1 + (c + 1))) ∧ i < n := by
          refine ⟨?_, h1.2⟩
          rcases h1.1 with h3 | h3
          · exact Or.inl h3
          · exact Or.inr ⟨h3.1, by omega⟩
        rw [if_pos h1, if_pos h2]
      · have h2 : ¬ ((firstOcc t0 i < k
            ∨ (firstOcc t0 i = k ∧ i < k + 1 + (c + 1))) ∧ i < n) := by
          intro h2
          apply h1
          refine ⟨?_, h2.2⟩
          rcases h2.1 with h3 | h3
          · exact Or.inl h3
          · refine Or.inr ⟨h3.1, ?_⟩
            rcases h3 with ⟨he, hb⟩
            by_contra hge
            have hict : i = k + 1 + c := by omega
            rw [hict] at he
            exact hm he
        rw [if_neg h1, if_neg h2]
    · rw [h.dcount, range'_snoc, List.countP_append]
      rw [show [k + 1 + c] = (k + 1 + c) :: ([] : List Nat) from rfl, List.countP_cons]
      simp only [List.countP_nil]
      rw [show (decide (firstOcc t0 (k + 1 + c) = k)) = false from by
        simp only [decide_eq_false_iff_not]; exact hm]
      rw [if_neg Bool.false_ne_true]
      omega
    · exact h.pdups

/-- Invariant of the outer (`tile`) loop of the duplicate scan, after the
positions `0 .. k-1` have been processed as anchors. -/
structure OuterInv (n : Nat) (t0 : Nat → DataTile) (m1 : Nat → Nat)
    (k : Nat) (s : DedupState) : Prop where
  rows : ∀ i, (s.tiles i).row = (t0 i).row
  flag : ∀ i, (s.tiles i).duplicate
    = ((t0 i).duplicate
        || decide (firstOcc t0 i < i ∧ firstOcc t0 i < k ∧ i < n))
  map : ∀ i, s.tileMap i
    = if firstOcc t0 i < k ∧ i < n then canonIdx t0 i else m1 i
  dcount : s.duplicateCount
    = (List.range n).countP
        (fun i => decide (firstOcc t0 i < i ∧ firstOcc t0 i < k))
  pdups : s.previousDuplicates = dupsBefore t0 k

lemma outer_step_inv (n : Nat) (t0 : Nat → DataTile) (m1 : Nat → Nat)
    (hf : ∀ i, i < n → (t0 i).duplicate = true → firstOcc t0 i < i)
    (k : Nat) (s : DedupState) (hk : k < n) (h : OuterInv n t0 m1 k s) :
    OuterInv n t0 m1 (k + 1) (dedupOuterStep n s k) := by
  rw [dedupOuterStep]
  by_cases hdup : firstOcc t0 k < k
  · have hflag : (s.tiles k).duplicate = true := by
      rw [h.flag k]
      rw [show decide (firstOcc t0 k < k ∧ firstOcc t0 k < k ∧ k < n) = true from by
        simp only [decide_eq_true_eq]; exact ⟨hdup, hdup, hk⟩]
      rw [Bool.or_true]
    rw [if_pos hflag]
    have hne : ∀ i, firstOcc t0 i ≠ k := firstOcc_ne_of_not_anchor hdup
    constructor
    · exact h.rows
    · intro i
      rw [h.flag i]
      congr 1
      apply decide_eq_decide.mpr
      have := hne i
      omega
    · intro i
      rw [h.map i]
      exact if_congr (by have := hne i; omega) rfl rfl
    · show s.duplicateCount = _
      rw [h.dcount]
      apply List.countP_congr
      intro x _
      simp only [decide_eq_true_eq]
      have := hne x
      omega
    · show s.previousDuplicates + 1 = _
      rw [h.pdups, dupsBefore_succ, if_pos hdup]
  · have hfk : firstOcc t0 k = k := by
      have := firstOcc_le t0 k
      omega
    have hflag : (s.tiles k).duplicate = false := by
      rw [h.flag k]
      have h1 : (t0 k).duplicate = false := by
        cases hd : (t0 k).duplicate
        · rfl
        · exact absurd (hf k hk hd) hdup
      have h2 : decide (firstOcc t0 k < k ∧ firstOcc t0 k < k ∧ k < n) = false := by
        simp only [decide_eq_false_iff_not]
        intro hh
        exact hdup hh.1
      rw [h1, h2]
      rfl
    rw [if_neg (by rw [hflag]; exact Bool.false_ne_true)]
    have hbase : InnerInv n t0 m1 k 0
        { s with tileMap := Function.update s.tileMap k (k - s.previousDuplicates) } := by
      constructor
      · exact h.rows
      · intro i
        rw [h.flag i]
        congr 1
        apply decide_eq_decide.mpr
        constructor
        · intro h1
          exact Or.inl h1
        · rintro (h1 | h1)
          · exact h1
          · omega
      · intro i
        show Function.update s.tileMap k (k - s.previousDuplicates) i = _
        rw [Function.update_apply]
        by_cases hi : i = k
        · rw [if_pos hi, hi, h.pdups]
          rw [if_pos ⟨Or.inr ⟨hfk, by omega⟩, hk⟩]
          rw [canonIdx, hfk]
        · rw [if_neg hi, h.map i]
          have hle := firstOcc_le t0 i
          apply if_congr ?_ rfl rfl
          constructor
          · intro h1
            exact ⟨Or.inl h1.1, h1.2⟩
          · rintro ⟨h1 | h1, h2⟩
            · exact ⟨h1, h2⟩
            · exfalso
              apply hi
              omega
      · show s.duplicateCount = _
        rw [h.dcount]
        rw [show List.range' (k + 1) 0 = ([] : List Nat) from rfl, List.countP_nil,
          Nat.add_zero]
      · exact h.pdups
    have hstep : ∀ j s', j < n - (k + 1) → InnerInv n t0 m1 k j s' →
        InnerInv n t0 m1 k (j + 1) (dedupInnerStep k s' (k + 1 + j)) :=
      fun j s' hj hP => inner_step_inv n t0 m1 k hk hfk j s' hj hP
    have hinner := foldl_range'_inv (n - (k + 1)) (k + 1) (dedupInnerStep k)
      (fun c s' => InnerInv n t0 m1 k c s') _ hbase hstep
    have hnb : k + 1 + (n - (k + 1)) = n := by omega
    constructor
    · exact hinner.rows
    · intro i
      rw [hinner.flag i]
      congr 1
      apply decide_eq_decide.mpr
      rw [hnb]
      have hle := firstOcc_le t0 i
      omega
    · intro i
      rw [hinner.map i]
      rw [hnb]
      apply if_congr ?_ rfl rfl
      omega
    · rw [hinner.dcount]
      have hsplit : (List.range n).countP
            (fun i => decide (firstOcc t0 i < i ∧ firstOcc t0 i < k + 1))
          = (List.range n).countP
              (fun i => decide (firstOcc t0 i < i ∧ firstOcc t0 i < k))
            + (List.range n).countP
              (fun i => decide (firstOcc t0 i = k ∧ k < i)) := by
        apply countP_split
        intro a _
        constructor
        · rw [← decide_or_eq]
          apply decide_eq_decide.mpr
          omega
        · simp only [decide_eq_true_eq]
          omega
      have he2 : (List.range n).countP (fun i => decide (firstOcc t0 i = k ∧ k < i))
          = (List.range' (k + 1) (n - (k + 1))).countP
              (fun i => decide (firstOcc t0 i = k)) := by
        rw [range_split n k hk, List.countP_append]
        have hz : (List.range (k + 1)).countP
            (fun i => decide (firstOcc t0 i = k ∧ k < i)) = 0 := by
          apply List.countP_eq_zero.mpr
          intro a ha
          have := List.mem_range.mp ha
          simp only [decide_eq_true_eq]
          omega
        rw [hz, Nat.zero_add]
        apply List.countP_congr
        intro x hx
        have hx1 := (List.mem_range'_1.mp hx).1
        simp only [decide_eq_true_eq]
        omega
      rw [hsplit, he2]
    · rw [hinner.pdups, dupsBefore_succ, if_neg hdup, Nat.add_zero]

lemma dataTile_eq_of_fields {a b : DataTile} (h1 : a.row = b.row)
    (h2 : a.duplicate = b.duplicate) : a = b := by
  cases a
  cases b
  cases h1
  cases h2
  rfl

/-- Frame facts about the duplicate scan that hold unconditionally: row
words are never modified, and entries beyond the first `n` are untouched. -/
structure DedupFrame (n : Nat) (t0 : Nat → DataTile) (m0 : Nat → Nat)
    (s : DedupState) : Prop where
  rows : ∀ i, (s.tiles i).row = (t0 i).row
  tilesHigh : ∀ i, n ≤ i → s.tiles i = t0 i
  mapHigh : ∀ i, n ≤ i → s.tileMap i = m0 i

lemma inner_step_frame (n : Nat) (t0 : Nat → DataTile) (m0 : Nat → Nat)
    (k ct : Nat) (hct : ct < n) (s : DedupState)
    (h : DedupFrame n t0 m0 s) : DedupFrame n t0 m0 (dedupInnerStep k s ct) := by
  rw [dedupInnerStep]
  by_cases hcond : sameRows (s.tiles k) (s.tiles ct) = true
  · rw [if_pos hcond]
    constructor
    · intro i
      show (Function.update s.tiles ct ⟨(s.tiles ct).row, true⟩ i).row = _
      rw [Function.update_apply]
      by_cases hi : i = ct
      · rw [if_pos hi]
        show (s.tiles ct).row = _
        rw [h.rows ct, hi]
      · rw [if_neg hi, h.rows i]
    · intro i hi
      show Function.update s.tiles ct ⟨(s.tiles ct).row, true⟩ i = _
      rw [Function.update_apply, if_neg (by omega), h.tilesHigh i hi]
    · intro i hi
      show Function.update s.tileMap ct (s.tileMap k) i = _
      rw [Function.update_apply, if_neg (by omega), h.mapHigh i hi]
  · rw [if_neg hcond]
    exact h

lemma outer_step_frame (n : Nat) (t0 : Nat → DataTile) (m0 : Nat → Nat)
    (k : Nat) (hk : k < n) (s : DedupState)
    (h : DedupFrame n t0 m0 s) : DedupFrame n t0 m0 (dedupOuterStep n s k) := by
  rw [dedupOuterStep]
  by_cases hdup : (s.tiles k).duplicate = true
  · rw [if_pos hdup]
    exact ⟨h.rows, h.tilesHigh, h.mapHigh⟩
  · rw [if_neg hdup]
    have hbase : DedupFrame n t0 m0
        { s with tileMap := Function.update s.tileMap k (k - s.previousDuplicates) } := by
      constructor
      · exact h.rows
      · exact h.tilesHigh
      · intro i hi
        show Function.update s.tileMap k (k - s.previousDuplicates) i = _
        rw [Function.update_apply, if_neg (by omega), h.mapHigh i hi]
    exact foldl_range'_inv (n - (k + 1)) (k + 1) (dedupInnerStep k)
      (fun _ s' => DedupFrame n t0 m0 s') _ hbase
      (fun j s' hj hP => inner_step_frame n t0 m0 k (k + 1 + j) (by omega) s' hP)

/-- `image2gb_check_duplicates` never alters row words and never touches
entries beyond the `n` tiles of the image. -/
lemma check_duplicates_frame (n : Nat) (t0 : Nat → DataTile) (m0 : Nat → Nat) :
    (∀ i, ((image2gb_check_duplicates n t0 m0).tiles i).row = (t0 i).row)
    ∧ (∀ i, n ≤ i → (image2gb_check_duplicates n t0 m0).tiles i = t0 i)
    ∧ (∀ i, n ≤ i → (image2gb_check_duplicates n t0 m0).tileMap i = m0 i) := by
  have hbase : DedupFrame n t0 m0
      ⟨t0, (List.range n).foldl (fun m t => Function.update m t t) m0, 0, 0⟩ := by
    constructor
    · intro i
      rfl
    · intro i _
      rfl
    · intro i hi
      show ((List.range n).foldl (fun m t => Function.update m t t) m0) i = _
      rw [initMap_apply, if_neg (by omega)]
  have hfold : DedupFrame n t0 m0 (dedupFold n t0 m0) :=
    foldl_range_inv n (dedupOuterStep n)
      (fun _ s => DedupFrame n t0 m0 s) _ hbase
      (fun k s hk hP => outer_step_frame n t0 m0 k hk s hP)
  exact ⟨hfold.rows, hfold.tilesHigh, hfold.mapHigh⟩

/-- Full characterization of `image2gb_check_duplicates`, valid whenever
any pre-set duplicate flag is consistent with the tile contents (true in
a fresh process, where no flag is set, and after any earlier run of the
scan on the same contents). -/
lemma check_duplicates_spec (n : Nat) (t0 : Nat → DataTile) (m0 : Nat → Nat)
    (hf : ∀ i, i < n → (t0 i).duplicate = true → firstOcc t0 i < i) :
    (∀ i, ((image2gb_check_duplicates n t0 m0).tiles i).row = (t0 i).row)
    ∧ (∀ i, i < n → ((image2gb_check_duplicates n t0 m0).tiles i).duplicate
        = decide (firstOcc t0 i < i))
    ∧ (∀ i, n ≤ i → (image2gb_check_duplicates n t0 m0).tiles i = t0 i)
    ∧ (∀ i, i < n → (image2gb_check_duplicates n t0 m0).tileMap i = canonIdx t0 i)
    ∧ (∀ i, n ≤ i → (image2gb_check_duplicates n t0 m0).tileMap i = m0 i)
    ∧ (image2gb_check_duplicates n t0 m0).uniqueCount = n - dupsBefore t0 n := by
  have hbase : OuterInv n t0 (fun i => if i < n then i else m0 i) 0
      ⟨t0, (List.range n).foldl (fun m t => Function.update m t t) m0, 0, 0⟩ := by
    constructor
    · intro i
      rfl
    · intro i
      show (t0 i).duplicate = _
      rw [show decide (firstOcc t0 i < i ∧ firstOcc t0 i < 0 ∧ i < n) = false from by
        simp only [decide_eq_false_iff_not]; omega]
      rw [Bool.or_false]
    · intro i
      show ((List.range n).foldl (fun m t => Function.update m t t) m0) i = _
      rw [initMap_apply]
      have h1 : ¬ (firstOcc t0 i < 0 ∧ i < n) := by omega
      rw [if_neg h1]
    · show 0 = _
      symm
      apply List.countP_eq_zero.mpr
      intro a _
      simp only [decide_eq_true_eq]
      omega
    · rfl
  have hm : OuterInv n t0 (fun i => if i < n then i else m0 i) n (dedupFold n t0 m0) :=
    foldl_range_inv n (dedupOuterStep n)
      (fun k s => OuterInv n t0 (fun i => if i < n then i else m0 i) k s) _ hbase
      (fun k s hk hP => outer_step_inv n t0 _ hf k s hk hP)
  refine ⟨hm.rows, ?_, ?_, ?_, ?_, ?_⟩
  · intro i hi
    show ((dedupFold n t0 m0).tiles i).duplicate = _
    rw [hm.flag i]
    have hle := firstOcc_le t0 i
    cases hd : (t0 i).duplicate
    · rw [Bool.false_or]
      apply decide_eq_decide.mpr
      omega
    · rw [Bool.true_or]
      symm
      simp only [decide_eq_true_eq]
      exact hf i hi hd
  · intro i hi
    show (dedupFold n t0 m0).tiles i = _
    apply dataTile_eq_of_fields (hm.rows i)
    rw [hm.flag i]
    rw [show decide (firstOcc t0 i < i ∧ firstOcc t0 i < n ∧ i < n) = false from by
      simp only [decide_eq_false_iff_not]; omega]
    rw [Bool.or_false]
  · intro i hi
    show (dedupFold n t0 m0).tileMap i = _
    rw [hm.map i]
    have hle := firstOcc_le t0 i
    rw [if_pos ⟨by omega, hi⟩]
  · intro i hi
    show (dedupFold n t0 m0).tileMap i = _
    rw [hm.map i]
    have h1 : ¬ (firstOcc t0 i < n ∧ i < n) := by omega
    rw [if_neg h1]
    have h2 : ¬ i < n := by omega
    rw [if_neg h2]
  · show n - (dedupFold n t0 m0).duplicateCount = _
    rw [hm.dcount]
    congr 1
    apply List.countP_congr
    intro x hx
    have := List.mem_range.mp hx
    have hle := firstOcc_le t0 x
    simp only [decide_eq_true_eq]
    omega

lemma dedupResult_eq_of_fields {a b : DedupResult} (h1 : a.tiles = b.tiles)
    (h2 : a.tileMap = b.tileMap) (h3 : a.uniqueCount = b.uniqueCount) : a = b := by
  cases a
  cases b
  cases h1
  cases h2
  cases h3
  rfl

/-- Content equality of two row-word lists, rows 0..7. -/
def rowsEq (a b : List Nat) : Bool :=
  (List.range 8).all (fun r => a.getD r 0 == b.getD r 0)

lemma sameRows_eq_rowsEq (a b : DataTile) : sameRows a b = rowsEq a.row b.row := rfl

lemma dupsBefore_add_le (t : Nat → DataTile) (k m : Nat) (h : k ≤ m) :
    dupsBefore t m ≤ dupsBefore t k + (m - k) := by
  induction m with
  | zero =>
    have h0 : k = 0 := by omega
    subst h0
    simp
  | succ m ih =>
    rcases Nat.lt_or_ge k (m + 1) with h1 | h1
    · have h2 := ih (by omega)
      have h3 := dupsBefore_succ t m
      have h4 : dupsBefore t (m + 1) ≤ dupsBefore t m + 1 := by
        rw [h3]
        split <;> omega
      omega
    · have h0 : k = m + 1 := by omega
      subst h0
      simp

/-- The compacted index of any position is strictly below the number of
surviving tiles. -/
lemma canonIdx_lt (t : Nat → DataTile) (n i : Nat) (hi : i < n) :
    canonIdx t i < n - dupsBefore t n := by
  have ha : firstOcc t (firstOcc t i) = firstOcc t i := firstOcc_idem t i
  have hale : firstOcc t i ≤ i := firstOcc_le t i
  have h1 : dupsBefore t (firstOcc t i + 1) = dupsBefore t (firstOcc t i) := by
    rw [dupsBefore_succ, if_neg (by omega), Nat.add_zero]
  have h3 := dupsBefore_add_le t (firstOcc t i + 1) n (by omega)
  have h4 := dupsBefore_le t (firstOcc t i)
  rw [canonIdx]
  omega

/-- Every value below the surviving-tile count is hit by some anchor. -/
lemma canon_surj (t : Nat → DataTile) (n : Nat) :
    ∀ v, v < n - dupsBefore t n →
      ∃ a, a < n ∧ firstOcc t a = a ∧ a - dupsBefore t a = v := by
  induction n with
  | zero =>
    intro v hv
    rw [dupsBefore] at hv
    simp at hv
  | succ n ih =>
    intro v hv
    have hdb := dupsBefore_succ t n
    have hdble := dupsBefore_le t n
    by_cases hfo : firstOcc t n < n
    · rw [if_pos hfo] at hdb
      obtain ⟨a, ha1, ha2, ha3⟩ := ih v (by omega)
      exact ⟨a, by omega, ha2, ha3⟩
    · have hfe : firstOcc t n = n := by
        have := firstOcc_le t n
        omega
      rw [if_neg hfo, Nat.add_zero] at hdb
      by_cases hv2 : v < n - dupsBefore t n
      · obtain ⟨a, ha1, ha2, ha3⟩ := ih v hv2
        exact ⟨a, by omega, ha2, ha3⟩
      · refine ⟨n, by omega, hfe, by omega⟩

lemma filter_range_eq_single (n x : Nat) (p : Nat → Bool) (hx : x < n)
    (hp : ∀ y, y < n → (p y = true ↔ y = x)) :
    (List.range n).filter p = [x] := by
  induction n with
  | zero => omega
  | succ n ih =>
    rw [List.range_succ, List.filter_append]
    by_cases hxn : x = n
    · have h1 : (List.range n).filter p = [] := by
        apply List.filter_eq_nil_iff.mpr
        intro a ha
        have han := List.mem_range.mp ha
        intro hpa
        have := (hp a (by omega)).mp hpa
        omega
      have h2 : p n = true := (hp n (by omega)).mpr hxn.symm
      rw [h1]
      simp [h2, hxn]
    · have h2 : p n = false := by
        cases hpn : p n
        · rfl
        · have := (hp n (by omega)).mp hpn
          omega
      have h3 : List.filter p [n] = [] := by simp [h2]
      rw [h3, List.append_nil]
      exact ih (by omega) (fun y hy => hp y (by omega))

lemma fresh_to_hf (n : Nat) (t0 : Nat → DataTile)
    (hfresh : ∀ i, i < n → (t0 i).duplicate = false) :
    ∀ i, i < n → (t0 i).duplicate = true → firstOcc t0 i < i := by
  intro i hi hd
  rw [hfresh i hi] at hd
  exact absurd hd (by simp)

/-- C10: the duplicate scan never alters tile content - every row word of
every tile position is unchanged by `image2gb_check_duplicates`; only the
duplicate flags, the tilemap and the tile count are written. -/
theorem image2gb_c10_rows_preserved (n : Nat) (t0 : Nat → DataTile) (m0 : Nat → Nat) :
    ∀ i, ((image2gb_check_duplicates n t0 m0).tiles i).row = (t0 i).row :=
  (check_duplicates_frame n t0 m0).1

/-- C3: a position the scan leaves unmarked receives tilemap entry
`i - (number of positions below i finally classified duplicate)`. -/
theorem image2gb_c3_compaction (n : Nat) (t0 : Nat → DataTile) (m0 : Nat → Nat)
    (hfresh : ∀ i, i < n → (t0 i).duplicate = false) (i : Nat) (hi : i < n)
    (hnd : ((image2gb_check_duplicates n t0 m0).tiles i).duplicate = false) :
    (image2gb_check_duplicates n t0 m0).tileMap i
      = i - (List.range i).countP
          (fun j => ((image2gb_check_duplicates n t0 m0).tiles j).duplicate) := by
  obtain ⟨hrows, hflag, hhigh, hmap, hmhigh, hcount⟩ :=
    check_duplicates_spec n t0 m0 (fresh_to_hf n t0 hfresh)
  have hfo : firstOcc t0 i = i := by
    have h1 := hflag i hi
    rw [hnd] at h1
    have h2 := firstOcc_le t0 i
    by_contra hne
    have h3 : firstOcc t0 i < i := by omega
    rw [show decide (firstOcc t0 i < i) = true from by
      simp only [decide_eq_true_eq]; exact h3] at h1
    exact Bool.false_ne_true h1
  rw [hmap i hi, canonIdx, hfo]
  congr 1
  rw [dupsBefore]
  apply List.countP_congr
  intro x hx
  have hxi := List.mem_range.mp hx
  rw [hflag x (by omega)]

/-- Closed witness for C3 on two distinct one-colour tiles. -/
theorem image2gb_c3_witness :
    (image2gb_check_duplicates 2
        (fun p => if p = 0 then ⟨[1, 1, 1, 1, 1, 1, 1, 1], false⟩
          else ⟨[2, 2, 2, 2, 2, 2, 2, 2], false⟩) (fun _ => 0)).tileMap 1
      = 1 - (List.range 1).countP
          (fun j => ((image2gb_check_duplicates 2
            (fun p => if p = 0 then ⟨[1, 1, 1, 1, 1, 1, 1, 1], false⟩
              else ⟨[2, 2, 2, 2, 2, 2, 2, 2], false⟩) (fun _ => 0)).tiles j).duplicate) :=
  image2gb_c3_compaction 2
    (fun p => if p = 0 then ⟨[1, 1, 1, 1, 1, 1, 1, 1], false⟩
      else ⟨[2, 2, 2, 2, 2, 2, 2, 2], false⟩) (fun _ => 0)
    (by decide) 1 (by decide) (by decide)

/-- C5: every tilemap entry below `n` indexes a surviving tile, and the
assigned indices are exactly `0 .. uniqueCount - 1`. -/
theorem image2gb_c5_tilemap_valid (n : Nat) (t0 : Nat → DataTile) (m0 : Nat → Nat)
    (hfresh : ∀ i, i < n → (t0 i).duplicate = false) :
    (∀ i, i < n → (image2gb_check_duplicates n t0 m0).tileMap i
        < (image2gb_check_duplicates n t0 m0).uniqueCount)
    ∧ (∀ v, v < (image2gb_check_duplicates n t0 m0).uniqueCount →
        ∃ i, i < n ∧ (image2gb_check_duplicates n t0 m0).tileMap i = v) := by
  obtain ⟨hrows, hflag, hhigh, hmap, hmhigh, hcount⟩ :=
    check_duplicates_spec n t0 m0 (fresh_to_hf n t0 hfresh)
  constructor
  · intro i hi
    rw [hmap i hi, hcount]
    exact canonIdx_lt t0 n i hi
  · intro v hv
    rw [hcount] at hv
    obtain ⟨a, ha1, ha2, ha3⟩ := canon_surj t0 n v hv
    refine ⟨a, ha1, ?_⟩
    rw [hmap a ha1, canonIdx, ha2]
    exact ha3

/-- Closed witness for C5 on two identical tiles. -/
theorem image2gb_c5_witness :
    (image2gb_check_duplicates 2 (fun _ => ⟨[5, 5, 5, 5, 5, 5, 5, 5], false⟩)
        (fun _ => 0)).tileMap 1
      < (image2gb_check_duplicates 2 (fun _ => ⟨[5, 5, 5, 5, 5, 5, 5, 5], false⟩)
        (fun _ => 0)).uniqueCount :=
  (image2gb_c5_tilemap_valid 2 (fun _ => ⟨[5, 5, 5, 5, 5, 5, 5, 5], false⟩)
    (fun _ => 0) (by decide)).1 1 (by decide)

/-- C2: bit-identical tiles get identical tilemap entries, and the
canonical table keeps exactly one entry with that content - the row list
of the earliest occurrence. -/
theorem image2gb_c2_dedup_correct (n : Nat) (t0 : Nat → DataTile) (m0 : Nat → Nat)
    (hfresh : ∀ p, p < n → (t0 p).duplicate = false) (i j : Nat)
    (hij : i < j) (hjn : j < n) (hsame : sameRows (t0 i) (t0 j) = true) :
    (image2gb_check_duplicates n t0 m0).tileMap j
        = (image2gb_check_duplicates n t0 m0).tileMap i
    ∧ (canonTableList n (image2gb_check_duplicates n t0 m0).tiles).filter
        (fun rws => rowsEq rws (t0 i).row) = [(t0 (firstOcc t0 i)).row] := by
  obtain ⟨hrows, hflag, hhigh, hmap, hmhigh, hcount⟩ :=
    check_duplicates_spec n t0 m0 (fresh_to_hf n t0 hfresh)
  have hin : i < n := by omega
  constructor
  · rw [hmap j hjn, hmap i hin, canonIdx, canonIdx, firstOcc_congr hsame]
  · rw [canonTableList, List.filter_map, List.filter_filter]
    have hfole : firstOcc t0 i ≤ i := firstOcc_le t0 i
    have hsingle : (List.range n).filter
        (fun a => ((fun rws => rowsEq rws (t0 i).row) ∘
          (fun p => ((image2gb_check_duplicates n t0 m0).tiles p).row)) a
          && (!((image2gb_check_duplicates n t0 m0).tiles a).duplicate))
        = [firstOcc t0 i] := by
      apply filter_range_eq_single n (firstOcc t0 i) _ (by omega)
      intro y hy
      rw [Bool.and_eq_true, Function.comp_apply, Bool.not_eq_true']
      rw [hrows y, hflag y hy]
      rw [show rowsEq (t0 y).row (t0 i).row = sameRows (t0 y) (t0 i) from rfl]
      constructor
      · rintro ⟨h1, h2⟩
        have hfoy : firstOcc t0 y = y := by
          have h3 := firstOcc_le t0 y
          have h4 : ¬ (firstOcc t0 y < y) := by
            intro hlt
            rw [show decide (firstOcc t0 y < y) = true from by
              simp only [decide_eq_true_eq]; exact hlt] at h2
            exact Bool.false_ne_true h2.symm
          omega
        rw [← hfoy]
        exact firstOcc_congr h1
      · intro hy2
        subst hy2
        refine ⟨firstOcc_sameRows t0 i, ?_⟩
        rw [show decide (firstOcc t0 (firstOcc t0 i) < firstOcc t0 i) = false from by
          simp only [decide_eq_false_iff_not]
          rw [firstOcc_idem t0 i]
          omega]
    rw [hsingle, List.map_cons, List.map_nil, hrows (firstOcc t0 i)]

/-- Closed witness for C2 on two identical tiles. -/
theorem image2gb_c2_witness :
    (image2gb_check_duplicates 2 (fun _ => ⟨[5, 5, 5, 5, 5, 5, 5, 5], false⟩)
          (fun _ => 0)).tileMap 1
        = (image2gb_check_duplicates 2 (fun _ => ⟨[5, 5, 5, 5, 5, 5, 5, 5], false⟩)
          (fun _ => 0)).tileMap 0
      ∧ (canonTableList 2 (image2gb_check_duplicates 2
            (fun _ => ⟨[5, 5, 5, 5, 5, 5, 5, 5], false⟩) (fun _ => 0)).tiles).filter
          (fun rws => rowsEq rws ((fun _ : Nat => (⟨[5, 5, 5, 5, 5, 5, 5, 5],
            false⟩ : DataTile)) 0).row)
        = [((fun _ : Nat => (⟨[5, 5, 5, 5, 5, 5, 5, 5], false⟩ : DataTile))
            (firstOcc (fun _ => ⟨[5, 5, 5, 5, 5, 5, 5, 5], false⟩) 0)).row] :=
  image2gb_c2_dedup_correct 2 (fun _ => ⟨[5, 5, 5, 5, 5, 5, 5, 5], false⟩)
    (fun _ => 0) (by decide) 0 1 (by decide) (by decide) (by decide)

/-- A second run of the duplicate scan over its own output changes
nothing: valid whenever the incoming flags are consistent with content. -/
lemma dedup_idempotent (n : Nat) (t0 : Nat → DataTile) (m0 : Nat → Nat)
    (hf : ∀ i, i < n → (t0 i).duplicate = true → firstOcc t0 i < i) :
    image2gb_check_duplicates n (image2gb_check_duplicates n t0 m0).tiles
        (image2gb_check_duplicates n t0 m0).tileMap
      = image2gb_check_duplicates n t0 m0 := by
  obtain ⟨hrows, hflag, hhigh, hmap, hmhigh, hcount⟩ :=
    check_duplicates_spec n t0 m0 hf
  have hfoeq : ∀ p, firstOcc (image2gb_check_duplicates n t0 m0).tiles p
      = firstOcc t0 p := fun p => firstOcc_rows_congr hrows p
  have hf2 : ∀ p, p < n →
      ((image2gb_check_duplicates n t0 m0).tiles p).duplicate = true →
      firstOcc (image2gb_check_duplicates n t0 m0).tiles p < p := by
    intro p hp hd
    rw [hflag p hp] at hd
    rw [hfoeq p]
    simpa using hd
  obtain ⟨hrows2, hflag2, hhigh2, hmap2, hmhigh2, hcount2⟩ :=
    check_duplicates_spec n (image2gb_check_duplicates n t0 m0).tiles
      (image2gb_check_duplicates n t0 m0).tileMap hf2
  have hdbeq : ∀ k, dupsBefore (image2gb_check_duplicates n t0 m0).tiles k
      = dupsBefore t0 k := by
    intro k
    rw [dupsBefore, dupsBefore]
    apply List.countP_congr
    intro x _
    rw [hfoeq x]
  apply dedupResult_eq_of_fields
  · funext p
    rcases Nat.lt_or_ge p n with hp | hp
    · apply dataTile_eq_of_fields
      · exact hrows2 p
      · rw [hflag2 p hp, hflag p hp, hfoeq p]
    · exact hhigh2 p hp
  · funext p
    rcases Nat.lt_or_ge p n with hp | hp
    · rw [hmap2 p hp, hmap p hp, canonIdx, canonIdx, hfoeq p, hdbeq]
    · exact hmhigh2 p hp
  · rw [hcount2, hcount, hdbeq]

/-- C6: starting from a freshly encoded tile sequence (no duplicate flag
set), running the duplicate scan a second time - over the tiles and
tilemap the first run left behind - reproduces the first run's tile
array, tilemap and unique-tile count exactly. -/
theorem image2gb_c6_idempotent (n : Nat) (t0 : Nat → DataTile) (m0 : Nat → Nat)
    (hfresh : ∀ i, i < n → (t0 i).duplicate = false) :
    image2gb_check_duplicates n (image2gb_check_duplicates n t0 m0).tiles
        (image2gb_check_duplicates n t0 m0).tileMap
      = image2gb_check_duplicates n t0 m0 :=
  dedup_idempotent n t0 m0 (fresh_to_hf n t0 hfresh)

/-- Closed witness for C6 on two identical tiles. -/
theorem image2gb_c6_witness :
    image2gb_check_duplicates 2
        (image2gb_check_duplicates 2 (fun _ => ⟨[7, 0, 7, 0, 7, 0, 7, 0], false⟩)
          (fun _ => 0)).tiles
        (image2gb_check_duplicates 2 (fun _ => ⟨[7, 0, 7, 0, 7, 0, 7, 0], false⟩)
          (fun _ => 0)).tileMap
      = image2gb_check_duplicates 2 (fun _ => ⟨[7, 0, 7, 0, 7, 0, 7, 0], false⟩)
        (fun _ => 0) :=
  image2gb_c6_idempotent 2 (fun _ => ⟨[7, 0, 7, 0, 7, 0, 7, 0], false⟩)
    (fun _ => 0) (by decide)

/-- Closed form of `image2gb_read_image_tiles`: the entry for an in-range
position `i` is the conversion of grid block `(i / tw, i % tw)` into the
previous contents of that entry; all other entries are untouched. -/
lemma read_tiles_apply (grid : Nat → Nat → Nat) (tw th : Nat) (tiles0 : Nat → DataTile) :
    ∀ i, image2gb_read_image_tiles grid tw th tiles0 i
      = if i < th * tw then
          image2gb_convert_tile (imageTileOf grid (i / tw) (i % tw)) (tiles0 i)
        else tiles0 i := by
  rw [image2gb_read_image_tiles]
  apply foldl_range_inv th
    (fun ts row => (List.range tw).foldl (fun ts col =>
      Function.update ts (row * tw + col)
        (image2gb_convert_tile (imageTileOf grid row col) (ts (row * tw + col)))) ts)
    (fun r ts => ∀ i, ts i = if i < r * tw then
      image2gb_convert_tile (imageTileOf grid (i / tw) (i % tw)) (tiles0 i)
      else tiles0 i)
  · intro i
    rw [if_neg (by omega)]
  · intro r ts hr hP
    have hinner := foldl_range_inv tw
      (fun ts col => Function.update ts (r * tw + col)
        (image2gb_convert_tile (imageTileOf grid r col) (ts (r * tw + col))))
      (fun c ts => ∀ i, ts i = if i < r * tw + c then
        image2gb_convert_tile (imageTileOf grid (i / tw) (i % tw)) (tiles0 i)
        else tiles0 i)
      ts
      (by intro i; rw [Nat.add_zero]; exact hP i)
      ?_
    · intro i
      rw [hinner i]
      have harith : (r + 1) * tw = r * tw + tw := by ring
      rw [harith]
    · intro c ts2 hc hQ
      intro i
      show Function.update ts2 (r * tw + c)
        (image2gb_convert_tile (imageTileOf grid r c) (ts2 (r * tw + c))) i = _
      rw [Function.update_apply]
      by_cases hi : i = r * tw + c
      · rw [if_pos hi]
        have hdiv : (r * tw + c) / tw = r := by
          rw [Nat.mul_comm r tw, Nat.mul_add_div (by omega), Nat.div_eq_of_lt hc,
            Nat.add_zero]
        have hmod : (r * tw + c) % tw = c := by
          rw [Nat.mul_comm r tw, Nat.mul_add_mod, Nat.mod_eq_of_lt hc]
        have hold : ts2 (r * tw + c) = tiles0 (r * tw + c) := by
          rw [hQ (r * tw + c), if_neg (by omega)]
        rw [hold, hi, if_pos (by omega), hdiv, hmod]
      · rw [if_neg hi, hQ i]
        by_cases h2 : i < r * tw + c
        · rw [if_pos h2, if_pos (by omega)]
        · rw [if_neg h2, if_neg (by omega)]

/-- Extraction never touches the duplicate flags: after
`image2gb_read_image_tiles` every entry carries the flag it had before. -/
lemma read_tiles_flag (grid : Nat → Nat → Nat) (tw th : Nat) (tiles0 : Nat → DataTile) :
    ∀ i, (image2gb_read_image_tiles grid tw th tiles0 i).duplicate
      = (tiles0 i).duplicate := by
  intro i
  rw [read_tiles_apply]
  by_cases hi : i < th * tw
  · rw [if_pos hi, convert_tile_duplicate]
  · rw [if_neg hi]

/-- C9: extraction is row-major - the tile cut from grid block
`(row, col)` lands at sequence index `row * tileWidth + col` - and the
export emits exactly `(W/8)*(H/8)` tilemap entries. -/
theorem image2gb_c9_extraction :
    (∀ (grid : Nat → Nat → Nat) (tw th : Nat) (tiles0 : Nat → DataTile) (row col : Nat),
      row < th → col < tw →
      image2gb_read_image_tiles grid tw th tiles0 (row * tw + col)
        = image2gb_convert_tile (imageTileOf grid row col) (tiles0 (row * tw + col)))
    ∧ (∀ (grid : Nat → Nat → Nat) (tw th : Nat) (tiles0 : Nat → DataTile) (i : Nat),
        th * tw ≤ i → image2gb_read_image_tiles grid tw th tiles0 i = tiles0 i)
    ∧ (∀ (st : StaticState) (grid : Nat → Nat → Nat) (width height : Nat),
        (image2gb_export_image st grid width height).tileMap.length
          = width / 8 * (height / 8)) := by
  refine ⟨?_, ?_, ?_⟩
  · intro grid tw th tiles0 row col hrow hcol
    rw [read_tiles_apply]
    have hlt : row * tw + col < th * tw := by
      have h1 : row * tw + col < (row + 1) * tw := by
        have : (row + 1) * tw = row * tw + tw := by ring
        omega
      have h2 : (row + 1) * tw ≤ th * tw := Nat.mul_le_mul_right tw (by omega)
      omega
    rw [if_pos hlt]
    have hdiv : (row * tw + col) / tw = row := by
      rw [Nat.mul_comm row tw, Nat.mul_add_div (by omega), Nat.div_eq_of_lt hcol,
        Nat.add_zero]
    have hmod : (row * tw + col) % tw = col := by
      rw [Nat.mul_comm row tw, Nat.mul_add_mod, Nat.mod_eq_of_lt hcol]
    rw [hdiv, hmod]
  · intro grid tw th tiles0 i hi
    rw [read_tiles_apply, if_neg (by omega)]
  · intro st grid width height
    show ((List.range (width / 8 * (height / 8))).map _).length = _
    rw [List.length_map, List.length_range]

/-- Closed witness for C9 on a 16×8 all-zero image (2×1 tiles). -/
theorem image2gb_c9_witness :
    image2gb_read_image_tiles (fun _ _ => 0) 2 1 (fun _ => zeroDataTile) (0 * 2 + 1)
      = image2gb_convert_tile (imageTileOf (fun _ _ => 0) 0 1)
          ((fun _ => zeroDataTile) (0 * 2 + 1)) :=
  image2gb_c9_extraction.1 (fun _ _ => 0) 2 1 (fun _ => zeroDataTile) 0 1
    (by decide) (by decide)

lemma export_advisory_eq (st : StaticState) (grid : Nat → Nat → Nat) (w h : Nat) :
    (image2gb_export_image st grid w h).advisory
      = decide (256 < (image2gb_export_image st grid w h).uniqueCount) := rfl

lemma export_tileMap_eq (st : StaticState) (grid : Nat → Nat → Nat) (w h : Nat) :
    (image2gb_export_image st grid w h).tileMap
      = (List.range (w / 8 * (h / 8))).map
          (image2gb_check_duplicates (w / 8 * (h / 8))
            (image2gb_read_image_tiles grid (w / 8) (h / 8) st.dataTiles)
            st.tileMap).tileMap := rfl

lemma export_table_eq (st : StaticState) (grid : Nat → Nat → Nat) (w h : Nat) :
    (image2gb_export_image st grid w h).canonicalTable
      = canonTableList (w / 8 * (h / 8))
          (image2gb_check_duplicates (w / 8 * (h / 8))
            (image2gb_read_image_tiles grid (w / 8) (h / 8) st.dataTiles)
            st.tileMap).tiles := rfl

lemma export_uniqueCount_eq (st : StaticState) (grid : Nat → Nat → Nat) (w h : Nat) :
    (image2gb_export_image st grid w h).uniqueCount
      = (image2gb_check_duplicates (w / 8 * (h / 8))
          (image2gb_read_image_tiles grid (w / 8) (h / 8) st.dataTiles)
          st.tileMap).uniqueCount := rfl

lemma export_state_eq (st : StaticState) (grid : Nat → Nat → Nat) (w h : Nat) :
    (image2gb_export_image st grid w h).state
      = ⟨(image2gb_check_duplicates (w / 8 * (h / 8))
            (image2gb_read_image_tiles grid (w / 8) (h / 8) st.dataTiles)
            st.tileMap).tiles,
          (image2gb_check_duplicates (w / 8 * (h / 8))
            (image2gb_read_image_tiles grid (w / 8) (h / 8) st.dataTiles)
            st.tileMap).tileMap⟩ := rfl

/-- Tiles read from a fresh process's zeroed buffers carry no duplicate
flag. -/
lemma read_fresh_flags (grid : Nat → Nat → Nat) (tw th : Nat) :
    ∀ i, (image2gb_read_image_tiles grid tw th
      initialStaticState.dataTiles i).duplicate = false := by
  intro i
  rw [read_tiles_flag]
  rfl

/-- The canonical table of a run over fresh tiles has exactly
`uniqueCount` entries. -/
lemma canonTable_length (n : Nat) (t0 : Nat → DataTile) (m0 : Nat → Nat)
    (hfresh : ∀ i, i < n → (t0 i).duplicate = false) :
    (canonTableList n (image2gb_check_duplicates n t0 m0).tiles).length
      = (image2gb_check_duplicates n t0 m0).uniqueCount := by
  obtain ⟨hrows, hflag, hhigh, hmap, hmhigh, hcount⟩ :=
    check_duplicates_spec n t0 m0 (fresh_to_hf n t0 hfresh)
  rw [canonTableList, List.length_map, ← List.countP_eq_length_filter, hcount]
  have hsplit := List.length_eq_countP_add_countP
    (fun i => ((image2gb_check_duplicates n t0 m0).tiles i).duplicate) (List.range n)
  rw [List.length_range] at hsplit
  have h1 : (List.range n).countP
      (fun i => ((image2gb_check_duplicates n t0 m0).tiles i).duplicate)
      = dupsBefore t0 n := by
    rw [dupsBefore]
    apply List.countP_congr
    intro x hx
    rw [hflag x (List.mem_range.mp hx)]
  have h2 : (List.range n).countP
      (fun a => decide ¬ ((image2gb_check_duplicates n t0 m0).tiles a).duplicate = true)
      = (List.range n).countP
        (fun i => !((image2gb_check_duplicates n t0 m0).tiles i).duplicate) := by
    apply List.countP_congr
    intro x _
    cases hd : ((image2gb_check_duplicates n t0 m0).tiles x).duplicate <;> simp [hd]
  rw [h1] at hsplit
  rw [← h2]
  omega

/-- C7: the VRAM advisory fires exactly when more than 256 unique tiles
remain (never at exactly 256), and it is non-fatal: the canonical table
and tilemap are still produced in full and remain valid. -/
theorem image2gb_c7_advisory (grid : Nat → Nat → Nat) (width height : Nat) :
    ((image2gb_export_image initialStaticState grid width height).advisory = true
      ↔ 256 < (image2gb_export_image initialStaticState grid width height).uniqueCount)
    ∧ ((image2gb_export_image initialStaticState grid width height).uniqueCount = 256 →
        (image2gb_export_image initialStaticState grid width height).advisory = false)
    ∧ (∀ i, i < width / 8 * (height / 8) →
        (image2gb_export_image initialStaticState grid width height).tileMap.getD i 0
          < (image2gb_export_image initialStaticState grid width height).uniqueCount)
    ∧ (image2gb_export_image initialStaticState grid width height).canonicalTable.length
        = (image2gb_export_image initialStaticState grid width height).uniqueCount
    ∧ (image2gb_export_image initialStaticState grid width height).tileMap.length
        = width / 8 * (height / 8) := by
  have hfresh := read_fresh_flags grid (width / 8) (height / 8)
  obtain ⟨hrows, hflag, hhigh, hmap, hmhigh, hcount⟩ :=
    check_duplicates_spec (width / 8 * (height / 8))
      (image2gb_read_image_tiles grid (width / 8) (height / 8)
        initialStaticState.dataTiles)
      initialStaticState.tileMap
      (fresh_to_hf _ _ (fun i _ => hfresh i))
  refine ⟨?_, ?_, ?_, ?_, ?_⟩
  · rw [export_advisory_eq]
    exact decide_eq_true_iff
  · intro h
    rw [export_advisory_eq, h]
    decide
  · intro i hi
    rw [export_tileMap_eq, map_range_getD _ _ _ hi, export_uniqueCount_eq,
      hmap i hi, hcount]
    exact canonIdx_lt _ _ i hi
  · rw [export_table_eq, export_uniqueCount_eq]
    exact canonTable_length _ _ _ (fun i _ => hfresh i)
  · rw [export_tileMap_eq, List.length_map, List.length_range]

/-- Closed witness for C7 on an 8×8 all-zero image (1 unique tile, no
advisory, valid outputs). -/
theorem image2gb_c7_witness :
    ((image2gb_export_image initialStaticState (fun _ _ => 0) 8 8).advisory = true
      ↔ 256 < (image2gb_export_image initialStaticState (fun _ _ => 0) 8 8).uniqueCount)
    ∧ (0 < 8 / 8 * (8 / 8) ∧
        (image2gb_export_image initialStaticState (fun _ _ => 0) 8 8).tileMap.getD 0 0
          < (image2gb_export_image initialStaticState (fun _ _ => 0) 8 8).uniqueCount) :=
  ⟨(image2gb_c7_advisory (fun _ _ => 0) 8 8).1,
    by decide,
    (image2gb_c7_advisory (fun _ _ => 0) 8 8).2.2.1 0 (by decide)⟩

/-- Re-encoding the same pixels into an already-encoded tile changes
nothing: the OR of a row word with itself is itself.  The flag is carried
through untouched. -/
lemma convert_absorb (t : Nat → Nat) (d : DataTile) (f : Bool) :
    image2gb_convert_tile t ⟨(image2gb_convert_tile t d).row, f⟩
      = ⟨(image2gb_convert_tile t d).row, f⟩ := by
  apply dataTile_eq_of_fields
  · dsimp only
    apply List.ext_getElem
    · rw [convert_tile_length t ⟨(image2gb_convert_tile t d).row, f⟩,
        convert_tile_length t d]
    · intro r h1 h2
      have hlen := convert_tile_length t d
      have hr8 : r < 8 := by omega
      rw [← List.getD_eq_getElem _ 0 h1, ← List.getD_eq_getElem _ 0 h2]
      rw [convert_tile_row t ⟨(image2gb_convert_tile t d).row, f⟩ r hr8]
      dsimp only
      rw [convert_tile_row t d r hr8, Nat.or_assoc, Nat.or_self]
  · dsimp only
    rw [convert_tile_duplicate]

/-- C8 (amended): re-running the export on the same grid is stable - the
second run reproduces the first run's canonical table, tilemap, unique
count and advisory - because the stale row words are ORed with identical
bits and the stale duplicate flags are consistent with the unchanged
contents.  (A prior export of a DIFFERENT grid, however, can corrupt the
output: see the counterexample.) -/
theorem image2gb_c8_same_grid_stable (grid : Nat → Nat → Nat) (width height : Nat) :
    (image2gb_export_image
        (image2gb_export_image initialStaticState grid width height).state
        grid width height).canonicalTable
      = (image2gb_export_image initialStaticState grid width height).canonicalTable
    ∧ (image2gb_export_image
        (image2gb_export_image initialStaticState grid width height).state
        grid width height).tileMap
      = (image2gb_export_image initialStaticState grid width height).tileMap
    ∧ (image2gb_export_image
        (image2gb_export_image initialStaticState grid width height).state
        grid width height).uniqueCount
      = (image2gb_export_image initialStaticState grid width height).uniqueCount
    ∧ (image2gb_export_image
        (image2gb_export_image initialStaticState grid width height).state
        grid width height).advisory
      = (image2gb_export_image initialStaticState grid width height).advisory := by
  have hst1 : (image2gb_export_image initialStaticState grid width height).state.dataTiles
      = (image2gb_check_duplicates (width / 8 * (height / 8))
          (image2gb_read_image_tiles grid (width / 8) (height / 8)
            initialStaticState.dataTiles) initialStaticState.tileMap).tiles := by
    rw [export_state_eq]
  have hst2 : (image2gb_export_image initialStaticState grid width height).state.tileMap
      = (image2gb_check_duplicates (width / 8 * (height / 8))
          (image2gb_read_image_tiles grid (width / 8) (height / 8)
            initialStaticState.dataTiles) initialStaticState.tileMap).tileMap := by
    rw [export_state_eq]
  have hframe := check_duplicates_frame (width / 8 * (height / 8))
    (image2gb_read_image_tiles grid (width / 8) (height / 8)
      initialStaticState.dataTiles)
    initialStaticState.tileMap
  have htiles2 : image2gb_read_image_tiles grid (width / 8) (height / 8)
      (image2gb_check_duplicates (width / 8 * (height / 8))
        (image2gb_read_image_tiles grid (width / 8) (height / 8)
          initialStaticState.dataTiles) initialStaticState.tileMap).tiles
      = (image2gb_check_duplicates (width / 8 * (height / 8))
          (image2gb_read_image_tiles grid (width / 8) (height / 8)
            initialStaticState.dataTiles) initialStaticState.tileMap).tiles := by
    funext i
    rw [read_tiles_apply]
    by_cases hi : i < height / 8 * (width / 8)
    · rw [if_pos hi]
      have h1 := hframe.1 i
      have h2 : image2gb_read_image_tiles grid (width / 8) (height / 8)
          initialStaticState.dataTiles i
          = image2gb_convert_tile
              (imageTileOf grid (i / (width / 8)) (i % (width / 8)))
              (initialStaticState.dataTiles i) := by
        rw [read_tiles_apply, if_pos hi]
      have h3 : (image2gb_check_duplicates (width / 8 * (height / 8))
            (image2gb_read_image_tiles grid (width / 8) (height / 8)
              initialStaticState.dataTiles) initialStaticState.tileMap).tiles i
          = ⟨(image2gb_convert_tile
                (imageTileOf grid (i / (width / 8)) (i % (width / 8)))
                (initialStaticState.dataTiles i)).row,
              ((image2gb_check_duplicates (width / 8 * (height / 8))
                (image2gb_read_image_tiles grid (width / 8) (height / 8)
                  initialStaticState.dataTiles) initialStaticState.tileMap).tiles
                i).duplicate⟩ := by
        apply dataTile_eq_of_fields
        · rw [h1, h2]
        · rfl
      rw [h3, convert_absorb]
    · rw [if_neg hi]
  have hidem := dedup_idempotent (width / 8 * (height / 8))
    (image2gb_read_image_tiles grid (width / 8) (height / 8)
      initialStaticState.dataTiles)
    initialStaticState.tileMap
    (fresh_to_hf _ _ (fun i _ => by rw [read_tiles_flag]; rfl))
  refine ⟨?_, ?_, ?_, ?_⟩
  · rw [export_table_eq, export_table_eq, hst1, hst2, htiles2, hidem]
  · rw [export_tileMap_eq, export_tileMap_eq, hst1, hst2, htiles2, hidem]
  · rw [export_uniqueCount_eq, export_uniqueCount_eq, hst1, hst2, htiles2, hidem]
  · rw [export_advisory_eq, export_advisory_eq, export_uniqueCount_eq,
      export_uniqueCount_eq, hst1, hst2, htiles2, hidem]

set_option maxRecDepth 100000 in
/-- C8 counterexample: the claim that any two exports of the same grid
agree "regardless of any prior export call" is false.  In a process that
first exported an all-index-3 8×8 image, exporting an all-index-0 8×8
image produces a corrupted canonical table (the stale row words are ORed
into the new ones and are never cleared), unlike the same export from a
fresh process. -/
theorem image2gb_c8_counterexample :
    ¬ ((image2gb_export_image
          (image2gb_export_image initialStaticState (fun _ _ => 3) 8 8).state
          (fun _ _ => 0) 8 8).canonicalTable
        = (image2gb_export_image initialStaticState
            (fun _ _ => 0) 8 8).canonicalTable) := by
  decide
